import Mathlib

/-!
# Verification of the context-engineering prompt-assembly core

Shallow embedding of the Rust sources:
  * `context-engine/src/lib.rs` — template renderer (`interpolate_template`,
    `render_with_trace`),
  * `server-rs/src/resolvers.rs` — variable resolver registry
    (`clamp_string`, `classify_error_code`, `resolve_variable_with_trace`),
  * `server-rs/src/runs.rs` — node orderer and replay recorder
    (`topo_sort_nodes`, `row_to_variable_overrides`, `digest_text`,
    `missing_variables_count`, `replay_dataset`),
  * `server-rs/src/lib.rs` — preview path (`resolve_variable_value`,
    `execute_preview`).

Rust `String`/`&str` values are modelled as their UTF-8 byte sequences
(`List Nat`, each entry < 256); a Rust `char` pushed onto a `String`
contributes the UTF-8 encoding of its code point.  `str::trim` is modelled
on the ASCII white-space bytes (the claims never exercise non-ASCII
Unicode white space).  Hash maps are modelled as insertion lists with
last-write-wins lookup.  Asynchronous backend calls (session store, SQL,
graph, vector clients) and the wall clock are oracles passed in as
function parameters; file writes are an oracle `RunRecord → Bool`.
-/

/-- A Rust string/str, as its UTF-8 byte sequence. -/
abbrev Str : Type := List Nat

/-- UTF-8 encoding of one Unicode code point (scalar value). -/
def utf8Bytes (c : Nat) : List Nat :=
  if c < 128 then [c]
  else if c < 2048 then [192 + c / 64, 128 + c % 64]
  else if c < 65536 then [224 + c / 4096, 128 + (c / 64) % 64, 128 + c % 64]
  else [240 + c / 262144, 128 + (c / 4096) % 64, 128 + (c / 64) % 64, 128 + c % 64]

/-- The UTF-8 bytes of a Lean string literal; used to write down the byte
sequences of the Rust string literals appearing in the sources. -/
def bytes (s : String) : Str := s.data.flatMap (fun c => utf8Bytes c.toNat)

/-- ASCII white-space bytes: the bytes `char::is_whitespace` accepts below
0x80 (tab, LF, vertical tab, form feed, CR, space). -/
def isWsByte (b : Nat) : Bool :=
  b = 9 || b = 10 || b = 11 || b = 12 || b = 13 || b = 32

def trimLeftBytes : List Nat → List Nat
  | [] => []
  | b :: t => if isWsByte b then trimLeftBytes t else b :: t

/-- Model of `str::trim` (restricted to ASCII white space, see header). -/
def trimBytes (l : Str) : Str :=
  ((trimLeftBytes ((trimLeftBytes l).reverse)).reverse : List Nat)

/-- Byte-wise lexicographic `≤` on byte strings: the order of Rust's
`Ord for String`. -/
def bytesLe : List Nat → List Nat → Bool
  | [], _ => true
  | _ :: _, [] => false
  | a :: as_, b :: bs => if a < b then true else if b < a then false else bytesLe as_ bs

/-- `bytesLe` as a relation, for use with `List.insertionSort`. -/
def strLe (a b : Str) : Prop := bytesLe a b = true

instance : DecidableRel strLe := fun a b => inferInstanceAs (Decidable (bytesLe a b = true))

theorem bytesLe_total (a b : List Nat) : bytesLe a b = true ∨ bytesLe b a = true := by
  induction a generalizing b with
  | nil => left; rfl
  | cons x xs ih =>
    cases b with
    | nil => right; rfl
    | cons y ys =>
      by_cases hxy : x < y
      · left; simp [bytesLe, hxy]
      · by_cases hyx : y < x
        · right; simp [bytesLe, hyx, hxy]
        · have hxe : x = y := le_antisymm (le_of_not_lt hyx) (le_of_not_lt hxy)
          subst hxe
          rcases ih ys with h | h
          · left; simp [bytesLe, h]
          · right; simp [bytesLe, h]

theorem bytesLe_antisymm {a b : List Nat} (hab : bytesLe a b = true)
    (hba : bytesLe b a = true) : a = b := by
  induction a generalizing b with
  | nil =>
    cases b with
    | nil => rfl
    | cons y ys => simp [bytesLe] at hba
  | cons x xs ih =>
    cases b with
    | nil => simp [bytesLe] at hab
    | cons y ys =>
      by_cases hxy : x < y
      · exact absurd hba (by simp [bytesLe, Nat.lt_asymm hxy, hxy])
      · by_cases hyx : y < x
        · simp [bytesLe, hyx, hxy] at hab
        · have hxe : x = y := le_antisymm (le_of_not_lt hyx) (le_of_not_lt hxy)
          subst hxe
          simp [bytesLe, hxy] at hab hba
          simp [ih hab hba]

theorem bytesLe_trans {a b c : List Nat} (hab : bytesLe a b = true)
    (hbc : bytesLe b c = true) : bytesLe a c = true := by
  induction a generalizing b c with
  | nil => rfl
  | cons x xs ih =>
    cases b with
    | nil => simp [bytesLe] at hab
    | cons y ys =>
      cases c with
      | nil => simp [bytesLe] at hbc
      | cons z zs =>
        by_cases hxy : x < y <;> by_cases hyz : y < z
        · simp [bytesLe, Nat.lt_trans hxy hyz]
        · have hyze : y = z := by
            by_contra hne
            have : z < y := lt_of_le_of_ne (le_of_not_lt hyz) (Ne.symm hne)
            simp [bytesLe, hyz, this] at hbc
          subst hyze; simp [bytesLe, hxy]
        · have hxye : x = y := by
            by_contra hne
            have : y < x := lt_of_le_of_ne (le_of_not_lt hxy) (Ne.symm hne)
            simp [bytesLe, hxy, this] at hab
          subst hxye; simp [bytesLe, hyz]
        · have hxye : x = y := by
            by_contra hne
            have : y < x := lt_of_le_of_ne (le_of_not_lt hxy) (Ne.symm hne)
            simp [bytesLe, hxy, this] at hab
          have hyze : y = z := by
            by_contra hne
            have : z < y := lt_of_le_of_ne (le_of_not_lt hyz) (Ne.symm hne)
            simp [bytesLe, hyz, this] at hbc
          subst hxye; subst hyze
          simp [bytesLe, hxy] at hab hbc ⊢
          exact ih hab hbc

instance : IsTotal Str strLe := ⟨fun a b => bytesLe_total a b⟩

instance : IsTrans Str strLe := ⟨fun _ _ _ => bytesLe_trans⟩

instance : IsAntisymm Str strLe := ⟨fun _ _ => bytesLe_antisymm⟩

/-- Variable maps: `HashMap<String, String>` as an insertion list with
last-write-wins lookup. -/
abbrev VarMap : Type := List (Str × Str)

/-- `HashMap::get`: the value of the latest insertion for the key. -/
def lookupVar (m : VarMap) (k : Str) : Option Str :=
  ((List.reverse m).find? (fun p => decide (p.1 = k))).map (fun p => p.2)

/-- `HashMap::insert`. -/
def insertVar (m : VarMap) (k v : Str) : VarMap := List.append m [(k, v)]

/-! ## JSON values (`serde_json::Value`)

Numbers are modelled as integers (`as_i64`); the claims never exercise
floating-point rows, so the `as_f64` fallback of `json_value_to_string`
is not reachable in any statement below. -/

inductive Json where
  | null
  | bool (b : Bool)
  | num (n : Int)
  | str (s : Str)
  | arr (xs : List Json)
  | obj (kvs : List (Str × Json))

/-- Decimal digits of a natural number, as ASCII bytes. -/
def natToStr (n : Nat) : Str := (Nat.toDigits 10 n).map (fun c => c.toNat)

def intToStr (n : Int) : Str :=
  if n < 0 then bytes "-" ++ natToStr n.natAbs else natToStr n.toNat

/-- JSON string escaping used by `serde_json::to_string` (double quote,
backslash, and control characters). -/
def jsonEscapeByte (b : Nat) : List Nat :=
  if b = 34 then [92, 34]
  else if b = 92 then [92, 92]
  else if b = 10 then [92, 110]
  else if b = 13 then [92, 114]
  else if b = 9 then [92, 116]
  else if b < 32 then
    let hi := b / 16
    let lo := b % 16
    [92, 117, 48, 48, if hi < 10 then 48 + hi else 87 + hi, if lo < 10 then 48 + lo else 87 + lo]
  else [b]

def jsonEscape (s : Str) : Str := s.flatMap jsonEscapeByte

/-- `","`-join used by the JSON serializer. -/
def joinComma : List Str → Str
  | [] => []
  | [s] => s
  | s :: rest => s ++ (44 :: joinComma rest)

/-- `serde_json::to_string` (compact form). -/
def jsonToStr : Json → Str
  | .null => bytes "null"
  | .bool true => bytes "true"
  | .bool false => bytes "false"
  | .num n => intToStr n
  | .str s => 34 :: (jsonEscape s ++ ([34] : List Nat))
  | .arr xs => 91 :: (joinComma (xs.attach.map (fun x => jsonToStr x.1)) ++ ([93] : List Nat))
  | .obj kvs =>
      123 :: (joinComma (kvs.attach.map (fun kv =>
        (34 :: (jsonEscape kv.1.1 ++ ([34, 58] : List Nat))) ++ jsonToStr kv.1.2)) ++ ([125] : List Nat))
decreasing_by
  · have h := List.sizeOf_lt_of_mem x.2
    simp only [Json.arr.sizeOf_spec]
    omega
  · have h := List.sizeOf_lt_of_mem kv.2
    have h2 : sizeOf kv.1.2 < sizeOf kv.1 := by
      cases hkv : kv.1 with
      | mk a b => simp [hkv]
    simp only [Json.obj.sizeOf_spec]
    omega

/-- `json_value_to_string` (`runs.rs`): strings verbatim, numbers and
booleans via `to_string`, everything else serialized as JSON. -/
def json_value_to_string : Json → Str
  | .str s => s
  | .num n => intToStr n
  | .bool b => if b then bytes "true" else bytes "false"
  | v => jsonToStr v

/-- The details JSON objects attached to resolver trace messages, in
structured form (`json!({...})` in the source). -/
inductive MsgDetails where
  | staticVar (variableId variableName vtype : Str) (durationMs outputBytesLimit : Nat)
      (truncated : Bool)
  | resolvedVar (variableId variableName vtype scheme resolver : Str)
      (durationMs valueBytes outputBytesLimit : Nat) (truncated : Bool) (debug : Option Json)
  | failedVar (variableId variableName vtype scheme resolver : Str) (durationMs : Nat)
      (errorCode errorMessage : Str)

/-- The `errorCode` field of a details object, when present. -/
def MsgDetails.errorCode : MsgDetails → Option Str
  | .failedVar _ _ _ _ _ _ ec _ => some ec
  | _ => none

/-- The `truncated` flag of a details object, when present. -/
def MsgDetails.truncatedFlag : MsgDetails → Option Bool
  | .staticVar _ _ _ _ _ t => some t
  | .resolvedVar _ _ _ _ _ _ _ _ t _ => some t
  | _ => none

/-! ## Template renderer (`context-engine/src/lib.rs`) -/

inductive OutputStyle where
  | plain
  | labeled
deriving DecidableEq

inductive NodeKind where
  | system
  | user
  | assistant
  | tool
  | memory
  | retrieval
  | text
deriving DecidableEq

structure EngineNode where
  id : Str
  label : Str
  kind : NodeKind
  content : Str
deriving DecidableEq

inductive TraceSeverity where
  | info
  | warn
  | error
deriving DecidableEq

/-- The raw bytes of the literal token `\x7b\x7b … \x7d\x7d` as it appeared in
the template (`&template[start..i + 2]` in the source). -/
def tokenBytes (nameRaw : Str) : Str :=
  123 :: 123 :: (nameRaw ++ ([125, 125] : List Nat))

/-- Token close handling: `name.is_empty()` keeps the placeholder silently;
a hit substitutes the value verbatim; a miss keeps the placeholder and
records the trimmed name. -/
def tokenStep (vars : VarMap) (nameRaw : Str) (r : Str × List Str) : Str × List Str :=
  let name := trimBytes nameRaw
  if name = ([] : List Nat) then (tokenBytes nameRaw ++ r.1, r.2)
  else
    match lookupVar vars name with
    | some v => (v ++ r.1, r.2)
    | none => (tokenBytes nameRaw ++ r.1, name :: r.2)

/-- The scanning loop of `interpolate_template`.  The second argument holds
the scanner mode: `none` while copying literal text, `some acc` after an
opening `\x7b\x7b` with `acc` the (reversed) raw bytes collected so far.
Literal bytes are pushed with `out.push(bytes[i] as char)`, i.e. the byte
value re-encoded as a code point; an unterminated token at end of input is
copied through raw. -/
def interpGo (vars : VarMap) : List Nat → Option (List Nat) → Str × List Str
  | [], none => ([], [])
  | [], some acc => (123 :: 123 :: acc.reverse, [])
  | [b], none => (utf8Bytes b, [])
  | [b], some acc => (123 :: 123 :: (acc.reverse ++ ([b] : List Nat)), [])
  | b :: c :: rest, none =>
      if b = 123 ∧ c = 123 then interpGo vars rest (some [])
      else
        let r := interpGo vars (c :: rest) none
        (utf8Bytes b ++ r.1, r.2)
  | b :: c :: rest, some acc =>
      if b = 125 ∧ c = 125 then tokenStep vars acc.reverse (interpGo vars rest none)
      else interpGo vars (c :: rest) (some (b :: acc))

/-- `interpolate_template`: returns the interpolated output and the
missing-variable names, sorted (`missing.sort()`) and with adjacent
duplicates removed (`missing.dedup()`). -/
def interpolate_template (template : Str) (vars : VarMap) : Str × List Str :=
  let r := interpGo vars template none
  (r.1, List.destutter (· ≠ ·) (List.insertionSort strLe r.2))

/-- `TraceMessage`.  The server crate attaches a JSON `details` object to
resolver messages (`resolvers.rs`); renderer messages carry none. -/
structure TraceMessage where
  severity : TraceSeverity
  code : Str
  message : Str
  details : Option MsgDetails := none

structure TraceSegment where
  node_id : Str
  label : Str
  kind : NodeKind
  template : Str
  rendered : Str
  missing_variables : List Str
  messages : List TraceMessage

structure TraceRun where
  run_id : Str
  created_at : Str
  output_style : OutputStyle
  text : Str
  segments : List TraceSegment
  messages : List TraceMessage

/-- `"\n\n"`-join of the per-node rendered strings. -/
def joinBlank : List Str → Str
  | [] => []
  | [s] => s
  | s :: rest => s ++ (([10, 10] : List Nat) ++ joinBlank rest)

/-- `", "`-join used in the missing-variable message. -/
def joinSep : List Str → Str
  | [] => []
  | [s] => s
  | s :: rest => s ++ (bytes ", " ++ joinSep rest)

/-- The per-node `warn`/`missing_variable` message (`format!("缺失变量：{}",
missing.join(", "))`). -/
def missingVarMessage (missing : List Str) : TraceMessage :=
  { severity := .warn
    code := bytes "missing_variable"
    message := bytes "缺失变量：" ++ joinSep missing }

/-- One segment of `render_with_trace`. -/
def renderSegment (vars : VarMap) (output_style : OutputStyle)
    (node : EngineNode) : TraceSegment :=
  let bm := interpolate_template node.content vars
  let messages := if bm.2 = [] then [] else [missingVarMessage bm.2]
  let rendered : Str :=
    match output_style with
    | .plain => bm.1
    | .labeled => bytes "--- " ++ node.label ++ bytes " ---" ++ ([10] : List Nat) ++ bm.1
  { node_id := node.id
    label := node.label
    kind := node.kind
    template := node.content
    rendered := rendered
    missing_variables := bm.2
    messages := messages }

/-- `render_with_trace`. -/
def render_with_trace (nodes : List EngineNode) (vars : VarMap)
    (output_style : OutputStyle) (run_id created_at : Str) : TraceRun :=
  let segments := nodes.map (renderSegment vars output_style)
  { run_id := run_id
    created_at := created_at
    output_style := output_style
    text := trimBytes (joinBlank (segments.map (fun s => s.rendered)))
    segments := segments
    messages := [] }

/-! ## Variable resolver registry (`server-rs/src/resolvers.rs`) -/

structure VariableSpec where
  id : Str
  name : Str
  type : Str
  value : Str
  resolver : Option Str
deriving DecidableEq

structure ResolvedValue where
  string_value : Str
  debug_json : Option Json

def MAX_VALUE_BYTES : Nat := 20000

/-- Char-boundary test on a UTF-8 byte: true unless the byte is a
continuation byte (`0x80..=0xBF`); `char_indices` yields exactly the
positions of such bytes in a valid UTF-8 string. -/
def isCharBoundary (b : Nat) : Bool := b < 128 || 192 ≤ b

/-- The `char_indices` scan of `clamp_string`: the final `cut` value, i.e.
the largest char-start index `≤ max_bytes` (0 when there is none). -/
def clampCutGo (maxB : Nat) : List Nat → Nat → Nat → Nat
  | [], _, cut => cut
  | b :: rest, idx, cut =>
      if isCharBoundary b ∧ idx > maxB then cut
      else clampCutGo maxB rest (idx + 1) (if isCharBoundary b then idx else cut)

/-- `clamp_string`. -/
def clamp_string (s : Str) (max_bytes : Nat) : Str × Bool :=
  if s.length ≤ max_bytes then (s, false)
  else (s.take (clampCutGo max_bytes s 0 0), true)

/-- Substring test (`str::contains` with a string pattern). -/
def isPrefixB : List Nat → List Nat → Bool
  | [], _ => true
  | _ :: _, [] => false
  | a :: as_, b :: bs => a = b && isPrefixB as_ bs

def containsSub : List Nat → List Nat → Bool
  | hay, needle =>
      isPrefixB needle hay ||
        match hay with
        | [] => false
        | _ :: t => containsSub t needle

/-- `classify_error_code`. -/
def classify_error_code (err : Str) : Str :=
  let e := trimBytes err
  if e = bytes "resolver_missing" then bytes "resolver_missing"
  else if e = bytes "readonly_required" then bytes "readonly_required"
  else if e = bytes "feature_not_enabled" then bytes "feature_not_enabled"
  else if e = bytes "unsupported_op" then bytes "unsupported_op"
  else if containsSub e (bytes "decrypt failed") || containsSub e (bytes "missing DATA_KEY") then
    bytes "decrypt_failed"
  else if containsSub e (bytes "不支持的 resolver scheme") then bytes "unsupported_scheme"
  else if containsSub e (bytes "relative URL without a base") ||
      containsSub e (bytes "error with configuration") then bytes "invalid_url"
  else if containsSub e (bytes "unable to open database file") then bytes "sqlite_open_failed"
  else if containsSub e (bytes "connection refused") || containsSub e (bytes "Connection refused") then
    bytes "connect_failed"
  else bytes "unknown"

/-- Bytes before the first `"://"` — `resolver.split("://").next()`. -/
def splitBeforeSep : List Nat → List Nat
  | [] => []
  | 58 :: 47 :: 47 :: _ => []
  | b :: rest => b :: splitBeforeSep rest

structure ResolveWithTrace where
  result : Except Str ResolvedValue
  trace_message : TraceMessage

def knownSchemes : List Str :=
  [bytes "chat", bytes "sql", bytes "sqlite", bytes "neo4j", bytes "milvus"]

/-- `ResolverRegistry::resolve`: dispatch on the scheme; the five
scheme-specific resolver bodies perform backend I/O (session store,
datasource decrypt + SQL, Neo4j, Milvus) and are abstracted as `oracle`.
Unknown schemes fail with the literal error message of the source. -/
def registryResolve (oracle : Str → Str → VariableSpec → Except Str ResolvedValue)
    (scheme resolver : Str) (v : VariableSpec) : Except Str ResolvedValue :=
  if scheme ∈ knownSchemes then oracle scheme resolver v
  else .error (bytes "不支持的 resolver scheme：" ++ scheme)

/-- `resolve_variable_with_trace`.  `oracle` abstracts the scheme-specific
backends; `durationMs` abstracts the `now_ms()` differences.  The trace
message of the source carries a JSON `details` object; the embedding keeps
it alongside in structured form (`ResolveWithTrace.details`). -/
def resolve_variable_with_trace (oracle : Str → Str → VariableSpec → Except Str ResolvedValue)
    (durationMs : Nat) (v : VariableSpec) : ResolveWithTrace :=
  if v.type ≠ bytes "dynamic" then
    let c := clamp_string v.value MAX_VALUE_BYTES
    { result := .ok { string_value := c.1, debug_json := none }
      trace_message :=
        { severity := .info
          code := bytes "variable_static"
          message := bytes "变量 " ++ v.name ++ bytes " 使用静态值"
          details := some (.staticVar v.id v.name v.type durationMs MAX_VALUE_BYTES c.2) } }
  else
    let resolver := trimBytes (v.resolver.getD [])
    if resolver = ([] : List Nat) then
      { result := .error (bytes "resolver_missing")
        trace_message :=
          { severity := .warn
            code := bytes "variable_resolve_failed"
            message := bytes "变量 " ++ v.name ++ bytes " 解析失败：resolver 为空"
            details := some (.failedVar v.id v.name v.type [] [] durationMs
              (bytes "resolver_missing") (bytes "resolver_missing")) } }
    else
      let scheme := trimBytes (splitBeforeSep resolver)
      match registryResolve oracle scheme resolver v with
      | .ok resolved =>
          let c := clamp_string resolved.string_value MAX_VALUE_BYTES
          { result := .ok { string_value := c.1, debug_json := resolved.debug_json }
            trace_message :=
              { severity := .info
                code := bytes "variable_resolved"
                message := bytes "变量 " ++ v.name ++ bytes " 解析成功"
                details := some (.resolvedVar v.id v.name v.type scheme resolver durationMs
                  c.1.length MAX_VALUE_BYTES c.2 resolved.debug_json) } }
      | .error err =>
          { result := .error err
            trace_message :=
              { severity := .warn
                code := bytes "variable_resolve_failed"
                message := bytes "变量 " ++ v.name ++ bytes " 解析失败：" ++ err
                details := some (.failedVar v.id v.name v.type scheme resolver durationMs
                  (classify_error_code err) err) } }

/-! ## Content digest (`digest_text`: SHA-256 then standard base64) -/

def w32 (x : Nat) : Nat := x % 4294967296

def rotr32 (n x : Nat) : Nat := w32 ((x >>> n) ||| (x <<< (32 - n)))

def shaK : List Nat :=
  [1116352408, 1899447441, 3049323471, 3921009573, 961987163, 1508970993,
   2453635748, 2870763221, 3624381080, 310598401, 607225278, 1426881987,
   1925078388, 2162078206, 2614888103, 3248222580, 3835390401, 4022224774,
   264347078, 604807628, 770255983, 1249150122, 1555081692, 1996064986,
   2554220882, 2821834349, 2952996808, 3210313671, 3336571891, 3584528711,
   113926993, 338241895, 666307205, 773529912, 1294757372, 1396182291,
   1695183700, 1986661051, 2177026350, 2456956037, 2730485921, 2820302411,
   3259730800, 3345764771, 3516065817, 3600352804, 4094571909, 275423344,
   430227734, 506948616, 659060556, 883997877, 958139571, 1322822218,
   1537002063, 1747873779, 1955562222, 2024104815, 2227730452, 2361852424,
   2428436474, 2756734187, 3204031479, 3329325298]

def shaH0 : List Nat :=
  [1779033703, 3144134277, 1013904242, 2773480762,
   1359893119, 2600822924, 528734635, 1541459225]

def toWords : List Nat → List Nat
  | a :: b :: c :: d :: rest => (a * 16777216 + b * 65536 + c * 256 + d) :: toWords rest
  | _ => []

def padMessage (m : List Nat) : List Nat :=
  let ml := m.length
  let padZeros := (64 - (ml + 9) % 64) % 64
  let bitLen := ml * 8
  m ++ [128] ++ List.replicate padZeros 0 ++
    [(bitLen / 72057594037927936) % 256, (bitLen / 281474976710656) % 256,
     (bitLen / 1099511627776) % 256, (bitLen / 4294967296) % 256,
     (bitLen / 16777216) % 256, (bitLen / 65536) % 256, (bitLen / 256) % 256, bitLen % 256]

def smallSigma0 (x : Nat) : Nat := Nat.xor (Nat.xor (rotr32 7 x) (rotr32 18 x)) (x >>> 3)
def smallSigma1 (x : Nat) : Nat := Nat.xor (Nat.xor (rotr32 17 x) (rotr32 19 x)) (x >>> 10)
def bigSigma0 (x : Nat) : Nat := Nat.xor (Nat.xor (rotr32 2 x) (rotr32 13 x)) (rotr32 22 x)
def bigSigma1 (x : Nat) : Nat := Nat.xor (Nat.xor (rotr32 6 x) (rotr32 11 x)) (rotr32 25 x)

def extendSchedule (ws : List Nat) : Nat → List Nat
  | 0 => ws
  | n + 1 =>
    let ws := extendSchedule ws n
    let i := ws.length
    if i ≥ 64 then ws
    else
      let w15 := ws.getD (i - 15) 0
      let w2 := ws.getD (i - 2) 0
      let w16 := ws.getD (i - 16) 0
      let w7 := ws.getD (i - 7) 0
      ws ++ [w32 (smallSigma1 w2 + w7 + smallSigma0 w15 + w16)]

def compressRound (st : List Nat) (kw : Nat × Nat) : List Nat :=
  match st with
  | [a, b, c, d, e, f, g, h] =>
    let t1 := w32 (h + bigSigma1 e + (Nat.xor (Nat.land e f) (Nat.land (4294967295 - e) g)) + kw.1 + kw.2)
    let t2 := w32 (bigSigma0 a + (Nat.xor (Nat.xor (Nat.land a b) (Nat.land a c)) (Nat.land b c)))
    [w32 (t1 + t2), a, b, c, w32 (d + t1), e, f, g]
  | st => st

def processChunk (h : List Nat) (chunk : List Nat) : List Nat :=
  let ws := extendSchedule (toWords chunk) 48
  let st := (shaK.zip ws).foldl compressRound h
  (h.zip st).map (fun p => w32 (p.1 + p.2))

/-- SHA-256 of a byte sequence (FIPS 180-4), as 32 digest bytes. -/
def sha256 (m : List Nat) : List Nat :=
  let p := padMessage m
  let cs := (List.range (p.length / 64)).map (fun i => (p.drop (64 * i)).take 64)
  let hs := cs.foldl processChunk shaH0
  hs.foldr (fun w acc => [w / 16777216, (w / 65536) % 256, (w / 256) % 256, w % 256] ++ acc) []

def b64Alphabet : List Nat :=
  bytes "ABCDEFGHIJKLMNOPQRSTUVWXYZabcdefghijklmnopqrstuvwxyz0123456789+/"

def b64Group (a b c : Nat) : List Nat :=
  [b64Alphabet.getD (a / 4) 0,
   b64Alphabet.getD ((a % 4) * 16 + b / 16) 0,
   b64Alphabet.getD ((b % 16) * 4 + c / 64) 0,
   b64Alphabet.getD (c % 64) 0]

/-- Standard base64 with `=` padding (`base64::engine::general_purpose::STANDARD`). -/
def b64Encode : List Nat → List Nat
  | [] => []
  | [a] => (b64Group a 0 0).take 2 ++ bytes "=="
  | [a, b] => (b64Group a b 0).take 3 ++ bytes "="
  | a :: b :: c :: rest => b64Group a b c ++ b64Encode rest

/-- `digest_text`: `base64(SHA-256(text))`. -/
def digest_text (t : Str) : Str := b64Encode (sha256 t)

/-! ## Replay recorder (`server-rs/src/runs.rs`) -/

/-- `StoredFlowNode` with its `data` payload flattened
(`data.label`, `data.type`, `data.content`). -/
structure StoredFlowNode where
  id : Str
  label : Str
  node_type : Str
  content : Str
deriving DecidableEq

structure StoredFlowEdge where
  source : Str
  target : Str
deriving DecidableEq

structure RunRecord where
  run_id : Str
  created_at : Str
  project_id : Str
  dataset_id : Str
  row_index : Nat
  status : Str
  output_digest : Str
  missing_variables_count : Nat
  trace : TraceRun

structure RunSummary where
  run_id : Str
  created_at : Str
  row_index : Nat
  status : Str
  output_digest : Str
  missing_variables_count : Nat

/-- `node_type_to_kind`. -/
def node_type_to_kind (node_type : Str) : NodeKind :=
  if node_type = bytes "system_prompt" then .system
  else if node_type = bytes "user_input" then .user
  else if node_type = bytes "messages" then .assistant
  else if node_type = bytes "tools" then .tool
  else if node_type = bytes "memory" then .memory
  else if node_type = bytes "retrieval" then .retrieval
  else .text

/-- The ids of the nodes; the key multiset of `by_id` is their set. -/
def nodeIds (nodes : List StoredFlowNode) : List Str := nodes.map (fun n => n.id)

/-- The distinct known node ids (the keys of `by_id`). -/
def knownIds (nodes : List StoredFlowNode) : List Str := (nodeIds nodes).dedup

/-- `by_id.get`: node insertion is in list order, so the last node with a
given id wins. -/
def lookupNodeById (nodes : List StoredFlowNode) (id : Str) : Option StoredFlowNode :=
  (nodes.filter (fun n => decide (n.id = id))).getLast?

/-- The edges whose source and target are both known node ids; all other
edges are skipped by the in-degree/out-list construction. -/
def keptEdges (nodes : List StoredFlowNode) (edges : List StoredFlowEdge) :
    List StoredFlowEdge :=
  edges.filter (fun e =>
    decide (e.source ∈ nodeIds nodes) && decide (e.target ∈ nodeIds nodes))

/-- In-degree of `id` from the kept edges. -/
def indeg0 (nodes : List StoredFlowNode) (edges : List StoredFlowEdge) (id : Str) : Nat :=
  ((keptEdges nodes edges).filter (fun e => decide (e.target = id))).length

/-- `out[id]`: targets of kept edges out of `id`, in edge order
(the loop sorts them before use). -/
def succs (nodes : List StoredFlowNode) (edges : List StoredFlowEdge) (id : Str) : List Str :=
  ((keptEdges nodes edges).filter (fun e => decide (e.source = id))).map (fun e => e.target)

structure KahnState where
  ready : List Str
  indeg : Str → Nat
  result : List StoredFlowNode

/-- The inner `for to in nexts` loop: decrement (`saturating_sub`) the
in-degree of each successor; when it reaches zero, push it onto the ready
list and re-sort (`ready.push(to); ready.sort()`). -/
def processSuccs : List Str → (Str → Nat) → List Str → ((Str → Nat) × List Str)
  | [], indeg, ready => (indeg, ready)
  | tgt :: rest, indeg, ready =>
      let d := indeg tgt - 1
      let indeg2 := fun x => if x = tgt then d else indeg x
      let ready2 := if d = 0 then List.insertionSort strLe (ready ++ [tgt]) else ready
      processSuccs rest indeg2 ready2

/-- The `while let Some(id) = ready.first()` loop of `topo_sort_nodes`.
`fuel` only bounds the iteration count for structural recursion; each
iteration pops a known id that was never popped before, so
`nodes.length + 1` units of fuel are never exhausted (see
`kahnLoop_ready_empty`). -/
def kahnLoop (nodes : List StoredFlowNode) (edges : List StoredFlowEdge) :
    Nat → KahnState → KahnState
  | 0, s => s
  | fuel + 1, s =>
      match s.ready with
      | [] => s
      | id :: restReady =>
          let res2 :=
            match lookupNodeById nodes id with
            | some n => s.result ++ [n]
            | none => s.result
          let nexts := List.insertionSort strLe (succs nodes edges id)
          let p := processSuccs nexts s.indeg restReady
          kahnLoop nodes edges fuel { ready := p.2, indeg := p.1, result := res2 }

/-- The initial ready list: zero-in-degree known ids, sorted.  (The source
collects them from hash-map iteration and then sorts; sorting makes the
result independent of the iteration order.) -/
def initialKahnState (nodes : List StoredFlowNode) (edges : List StoredFlowEdge) : KahnState :=
  { ready :=
      List.insertionSort strLe
        ((knownIds nodes).filter (fun id => decide (indeg0 nodes edges id = 0)))
    indeg := indeg0 nodes edges
    result := [] }

/-- Node order by id, used by the cycle fallback
(`fallback.sort_by(|a, b| a.id.cmp(&b.id))`; `insertionSort` is stable,
like `sort_by`). -/
def nodeIdLe (a b : StoredFlowNode) : Prop := strLe a.id b.id

instance : DecidableRel nodeIdLe := fun a b =>
  inferInstanceAs (Decidable (bytesLe a.id b.id = true))

/-- `topo_sort_nodes`. -/
def topo_sort_nodes (nodes : List StoredFlowNode) (edges : List StoredFlowEdge) :
    List StoredFlowNode :=
  if edges = [] then nodes
  else
    let s := kahnLoop nodes edges (nodes.length + 1) (initialKahnState nodes edges)
    if s.result.length ≠ nodes.length then List.insertionSort nodeIdLe nodes
    else s.result

/-- Object-key lookup (`serde_json` map keys are unique; first match). -/
def lookupKey (kvs : List (Str × Json)) (k : Str) : Option Json :=
  (kvs.find? (fun p => decide (p.1 = k))).map (fun p => p.2)

/-- Collect override pairs from an object, skipping keys starting `_`. -/
def collectOverrides (kvs : List (Str × Json)) : List (Str × Str) :=
  (kvs.filter (fun p => decide (p.1.head? ≠ some 95))).map
    (fun p => (p.1, json_value_to_string p.2))

/-- `row_to_variable_overrides`: object rows yield overrides (from the
nested `variables` object when present, otherwise the top level), skipping
keys that start with `_`; any other row is the `row_invalid` error. -/
def row_to_variable_overrides (row : Json) : Except Str (List (Str × Str)) :=
  match row with
  | .obj kvs =>
      match lookupKey kvs (bytes "variables") with
      | some (.obj vkvs) => .ok (collectOverrides vkvs)
      | some _ => .error (bytes "row_invalid")
      | none => .ok (collectOverrides kvs)
  | _ => .error (bytes "row_invalid")

/-- `missing_variables_count`: the number of distinct non-blank names in
the union of all segments' `missing_variables` lists. -/
def missing_variables_count (trace : TraceRun) : Nat :=
  (((trace.segments.flatMap (fun s => s.missing_variables)).filter
    (fun n => decide (trimBytes n ≠ ([] : List Nat)))).dedup).length

/-- The sequential per-variable resolution loop of `replay_dataset`:
one trace message is collected per variable regardless of success; only
successful resolutions insert into the map. -/
def resolveVarsLoop (oracle : Str → Str → VariableSpec → Except Str ResolvedValue)
    (dur : VariableSpec → Nat) :
    List VariableSpec → VarMap → List TraceMessage → VarMap × List TraceMessage
  | [], m, msgs => (m, msgs)
  | v :: rest, m, msgs =>
      let r := resolve_variable_with_trace oracle (dur v) v
      let m2 :=
        match r.result with
        | .ok value => insertVar m v.name value.string_value
        | .error _ => m
      resolveVarsLoop oracle dur rest m2 (msgs ++ [r.trace_message])

/-- Row overrides applied on top of the resolved map (overrides win). -/
def applyOverrides (m : VarMap) : List (Str × Str) → VarMap
  | [] => m
  | (k, v) :: rest => applyOverrides (insertVar m k v) rest

/-- Outcome of processing one dataset row inside `replay_dataset`:
the persisted record, the summary pushed for it, and whether the request
aborts with a 500 `write_failed` response. -/
structure RowResult where
  record : RunRecord
  summary : RunSummary
  aborted : Bool

/-- One iteration of the row loop of `replay_dataset` (run id and
timestamp are precomputed by the caller from `now_ms()`).

The failed-row branch renders with an empty variable map, records status
`failed` with the digest of the empty string, ignores the result of
`write_run_record` (`let _ = …`), and never aborts.  The success branch
resolves the project variables, merges the row overrides on top, renders,
appends the resolver messages to the trace, digests the rendered text, and
aborts the request if `write_run_record` fails. -/
def replayRow (oracle : Str → Str → VariableSpec → Except Str ResolvedValue)
    (dur : VariableSpec → Nat) (write : RunRecord → Bool)
    (engineNodes : List EngineNode) (projectVars : List VariableSpec)
    (projectId datasetId : Str) (row : Json) (rowIndex : Nat)
    (run_id created_at : Str) : RowResult :=
  match row_to_variable_overrides row with
  | .error _ =>
      let trace := render_with_trace engineNodes [] .labeled run_id created_at
      let record : RunRecord :=
        { run_id := run_id
          created_at := created_at
          project_id := projectId
          dataset_id := datasetId
          row_index := rowIndex
          status := bytes "failed"
          output_digest := digest_text []
          missing_variables_count := missing_variables_count trace
          trace := trace }
      { record := record
        summary :=
          { run_id := run_id
            created_at := created_at
            row_index := rowIndex
            status := bytes "failed"
            output_digest := record.output_digest
            missing_variables_count := record.missing_variables_count }
        aborted := false }
  | .ok overrides =>
      let rm := resolveVarsLoop oracle dur projectVars [] []
      let resolved_map := applyOverrides rm.1 overrides
      let trace0 := render_with_trace engineNodes resolved_map .labeled run_id created_at
      let trace : TraceRun := { trace0 with messages := trace0.messages ++ rm.2 }
      let digest := digest_text trace.text
      let missing := missing_variables_count trace
      let record : RunRecord :=
        { run_id := run_id
          created_at := created_at
          project_id := projectId
          dataset_id := datasetId
          row_index := rowIndex
          status := bytes "succeeded"
          output_digest := digest
          missing_variables_count := missing
          trace := trace }
      { record := record
        summary :=
          { run_id := run_id
            created_at := created_at
            row_index := rowIndex
            status := bytes "succeeded"
            output_digest := digest
            missing_variables_count := missing }
        aborted := ¬ write record }

/-- The row loop of `replay_dataset` over the selected rows: a failed row
contributes its summary and processing continues; a write failure on a
successfully processed row aborts the whole request with the
`write_failed` error response. -/
def replayRows (oracle : Str → Str → VariableSpec → Except Str ResolvedValue)
    (dur : VariableSpec → Nat) (write : RunRecord → Bool)
    (engineNodes : List EngineNode) (projectVars : List VariableSpec)
    (projectId datasetId : Str) (runIdAt createdAtAt : Nat → Str) :
    List Json → Nat → Except Str (List RunSummary)
  | [], _ => .ok []
  | row :: rest, i =>
      let r := replayRow oracle dur write engineNodes projectVars projectId datasetId row i
        (runIdAt i) (createdAtAt i)
      if r.aborted then .error (bytes "write_failed")
      else
        match replayRows oracle dur write engineNodes projectVars projectId datasetId
          runIdAt createdAtAt rest (i + 1) with
        | .ok s => .ok (r.summary :: s)
        | .error e => .error e

/-- The node preparation of `replay_dataset`: topologically order the
stored nodes, then convert to engine nodes. -/
def projectEngineNodes (nodes : List StoredFlowNode) (edges : List StoredFlowEdge) :
    List EngineNode :=
  (topo_sort_nodes nodes edges).map (fun n =>
    { id := n.id
      label := n.label
      kind := node_type_to_kind n.node_type
      content := n.content })

/-! ## Preview path (`server-rs/src/lib.rs`) -/

/-- `resolve_variable_value`: prefix-based dispatch used by
`execute_preview`.  `po` abstracts the five backend calls.  A resolver
whose prefix matches none of the five schemes (or an `sql`/`sqlite`/`neo4j`
resolver with a blank value) falls through to `Ok(v.value.clone())`. -/
def resolve_variable_value (po : Str → Str → VariableSpec → Except Str Str)
    (v : VariableSpec) : Except Str Str :=
  if v.type ≠ bytes "dynamic" then .ok v.value
  else
    let resolver := trimBytes (v.resolver.getD [])
    if isPrefixB (bytes "chat://") resolver then po (bytes "chat") resolver v
    else if isPrefixB (bytes "sql://") resolver ∧ trimBytes v.value ≠ ([] : List Nat) then
      po (bytes "sql") resolver v
    else if isPrefixB (bytes "sqlite://") resolver ∧ trimBytes v.value ≠ ([] : List Nat) then
      po (bytes "sqlite") resolver v
    else if isPrefixB (bytes "neo4j://") resolver ∧ trimBytes v.value ≠ ([] : List Nat) then
      po (bytes "neo4j") resolver v
    else if isPrefixB (bytes "milvus://") resolver then po (bytes "milvus") resolver v
    else .ok v.value

/-- The variable loop of `execute_preview`: a resolution failure inserts
the bracketed placeholder `[name]` and pushes a `warn` message (with no
details object and no classified error code). -/
def executePreviewVars (po : Str → Str → VariableSpec → Except Str Str) :
    List VariableSpec → VarMap → List TraceMessage → VarMap × List TraceMessage
  | [], m, msgs => (m, msgs)
  | v :: rest, m, msgs =>
      match resolve_variable_value po v with
      | .ok value => executePreviewVars po rest (insertVar m v.name value) msgs
      | .error err =>
          executePreviewVars po rest
            (insertVar m v.name (91 :: (v.name ++ ([93] : List Nat))))
            (msgs ++ [{ severity := .warn
                        code := bytes "variable_resolve_failed"
                        message := bytes " " ++ v.name ++ bytes " " ++ err }])

/-- `execute_preview` on already-converted engine nodes (the request-node
conversion maps `kind` strings via `kind_from_string`, orthogonal to the
claims). -/
def execute_preview (po : Str → Str → VariableSpec → Except Str Str)
    (engineNodes : List EngineNode) (reqVars : List VariableSpec)
    (output_style : OutputStyle) (run_id created_at : Str) : TraceRun :=
  let vm := executePreviewVars po reqVars [] []
  let trace0 := render_with_trace engineNodes vm.1 output_style run_id created_at
  { trace0 with messages := trace0.messages ++ vm.2 }

/-! ## Supporting lemmas: renderer -/

theorem renderSegment_labeled_rendered (vars : VarMap) (n : EngineNode) :
    (renderSegment vars .labeled n).rendered =
      bytes "--- " ++ n.label ++ bytes " ---" ++ ([10] : List Nat) ++
        (interpolate_template n.content vars).1 := rfl

theorem renderSegment_plain_rendered (vars : VarMap) (n : EngineNode) :
    (renderSegment vars .plain n).rendered = (interpolate_template n.content vars).1 := rfl

/-- C9: under labeled style every rendered segment is exactly the
`--- {label} ---\n` header followed by the interpolated body; under plain
style it is the body alone; and the run text is the blank-line join of the
rendered segments, trimmed. -/
theorem C9_labeled_prefix_and_join (nodes : List EngineNode) (vars : VarMap)
    (run_id created_at : Str) :
    ((render_with_trace nodes vars .labeled run_id created_at).segments.map
        (fun s => s.rendered) =
      nodes.map (fun n =>
        bytes "--- " ++ n.label ++ bytes " ---" ++ ([10] : List Nat) ++
          (interpolate_template n.content vars).1)) ∧
    ((render_with_trace nodes vars .plain run_id created_at).segments.map
        (fun s => s.rendered) =
      nodes.map (fun n => (interpolate_template n.content vars).1)) ∧
    (∀ style : OutputStyle,
      (render_with_trace nodes vars style run_id created_at).text =
        trimBytes (joinBlank
          ((render_with_trace nodes vars style run_id created_at).segments.map
            (fun s => s.rendered)))) := by
  refine ⟨?_, ?_, ?_⟩
  · simp only [render_with_trace, List.map_map]
    refine List.map_congr_left (fun a _ => ?_)
    simp [renderSegment]
  · simp only [render_with_trace, List.map_map]
    refine List.map_congr_left (fun a _ => ?_)
    simp [renderSegment]
  · intro style
    rfl

/-! ## Supporting lemmas: interpolation scanning -/

/-- Whether a byte list contains two adjacent occurrences of `c`. -/
def hasPair (c : Nat) : List Nat → Bool
  | a :: b :: rest => (decide (a = c) && decide (b = c)) || hasPair c (b :: rest)
  | _ => false

theorem hasPair_cons_false {c a : Nat} {l : List Nat}
    (h : hasPair c (a :: l) = false) : hasPair c l = false := by
  cases l with
  | nil => rfl
  | cons b t =>
    rw [show hasPair c (a :: b :: t) =
      ((decide (a = c) && decide (b = c)) || hasPair c (b :: t)) from rfl] at h
    exact (Bool.or_eq_false_iff.mp h).2

theorem hasPair_head_false {c a b : Nat} {l : List Nat}
    (h : hasPair c (a :: b :: l) = false) : ¬(a = c ∧ b = c) := by
  rw [show hasPair c (a :: b :: l) =
    ((decide (a = c) && decide (b = c)) || hasPair c (b :: l)) from rfl] at h
  have h1 := (Bool.or_eq_false_iff.mp h).1
  simp at h1
  tauto

/-- A template with no `\x7b\x7b` anywhere scans as pure literal text:
each byte is re-encoded as a code point. -/
theorem interpGo_no_token (vars : VarMap) :
    ∀ t : List Nat, hasPair 123 t = false →
      interpGo vars t none = (t.flatMap utf8Bytes, []) := by
  intro t
  induction t with
  | nil => intro _; rfl
  | cons b rest ih =>
    intro h
    cases rest with
    | nil => simp [interpGo]
    | cons c rest2 =>
      have hne := hasPair_head_false h
      have ih2 := ih (hasPair_cons_false h)
      simp [interpGo, hne, ih2]

theorem utf8Bytes_length_pos (b : Nat) : 0 < (utf8Bytes b).length := by
  unfold utf8Bytes
  split <;> simp_all
  split <;> simp_all
  split <;> simp_all

theorem utf8Bytes_of_ascii {b : Nat} (h : b < 128) : utf8Bytes b = [b] := by
  simp [utf8Bytes, h]

theorem utf8Bytes_length_of_not_ascii {b : Nat} (h : ¬ b < 128) :
    2 ≤ (utf8Bytes b).length := by
  unfold utf8Bytes
  split
  · omega
  · split
    · simp
    · split <;> simp

theorem flatMap_utf8_eq_self_iff (t : List Nat) :
    t.flatMap utf8Bytes = t ↔ ∀ b ∈ t, b < 128 := by
  constructor
  · intro h
    have hlen : ∀ l : List Nat, l.length ≤ (l.flatMap utf8Bytes).length := by
      intro l
      induction l with
      | nil => simp
      | cons b rest ih =>
        have := utf8Bytes_length_pos b
        simp only [List.flatMap_cons, List.length_append, List.length_cons]
        omega
    intro b hb
    by_contra hge
    obtain ⟨u, w, huw⟩ := List.append_of_mem hb
    subst huw
    have h2 := congrArg List.length h
    simp only [List.flatMap_append, List.flatMap_cons, List.length_append,
      List.length_cons] at h2
    have hu := hlen u
    have hw := hlen w
    have hb2 := utf8Bytes_length_of_not_ascii hge
    simp only [List.length_flatMap] at hu hw h2
    omega
  · intro h
    induction t with
    | nil => rfl
    | cons b rest ih =>
      have hb := h b (by simp)
      simp only [List.flatMap_cons, utf8Bytes_of_ascii hb, List.cons_append,
        List.nil_append]
      simp only [List.cons.injEq, true_and]
      exact ih (fun x hx => h x (by simp [hx]))

/-- C3: literal text is copied one byte at a time, each byte re-encoded as
a code point; hence a template with no `\x7b\x7b` renders (plain) to itself
iff it is pure ASCII. -/
theorem C3_literal_bytes_ascii (t : Str) (vars : VarMap)
    (h : hasPair 123 t = false) :
    (interpolate_template t vars).1 = t.flatMap utf8Bytes ∧
    ((interpolate_template t vars).1 = t ↔ ∀ b ∈ t, b < 128) ∧
    (∀ (id label run_id created_at : Str) (kind : NodeKind),
      (render_with_trace [{ id := id, label := label, kind := kind, content := t }]
          vars .plain run_id created_at).segments.map (fun s => s.rendered) =
        [t.flatMap utf8Bytes]) := by
  have h1 : (interpolate_template t vars).1 = t.flatMap utf8Bytes := by
    simp [interpolate_template, interpGo_no_token vars t h]
  refine ⟨h1, ?_, ?_⟩
  · rw [h1]
    exact flatMap_utf8_eq_self_iff t
  · intro id label run_id created_at kind
    simp [render_with_trace, renderSegment, h1]

/-- C3 witness: a concrete non-ASCII token-free template; `é` is mangled
into the two code points 0xC3 0xA9, so the template does not render to
itself, while the pure-ASCII check fails on the same byte. -/
theorem C3_literal_bytes_ascii_witness :
    hasPair 123 (bytes "héllo") = false ∧
    ((interpolate_template (bytes "héllo") []).1 = bytes "héllo" ↔
      ∀ b ∈ bytes "héllo", b < 128) :=
  ⟨by decide, (C3_literal_bytes_ascii (bytes "héllo") [] (by decide)).2.1⟩

theorem sorted_chain_ne_nodup :
    ∀ l : List Str, List.Pairwise strLe l → List.Chain' (· ≠ ·) l → l.Nodup := by
  intro l
  induction l with
  | nil => intro _ _; exact List.nodup_nil
  | cons a t ih =>
    intro hp hc
    have hpt := (List.pairwise_cons.mp hp).2
    have hpa := (List.pairwise_cons.mp hp).1
    refine List.nodup_cons.mpr ⟨?_, ih hpt (List.Chain'.tail hc)⟩
    intro hmem
    cases t with
    | nil => simp at hmem
    | cons b t2 =>
      have hab : a ≠ b := List.chain'_cons.mp hc |>.1
      rcases List.mem_cons.mp hmem with h | h
      · exact hab h
      · have h1 : strLe a b := hpa b (by simp)
        have h2 : strLe b a := (List.pairwise_cons.mp hpt).1 a h
        exact hab (bytesLe_antisymm h1 h2)

theorem mem_destutter_ne {α : Type} [DecidableEq α] :
    ∀ (l : List α) (x : α), x ∈ l → x ∈ l.destutter (· ≠ ·) := by
  have aux : ∀ (l : List α) (b x : α), x ∈ l →
      x ∈ l.destutter' (· ≠ ·) b ∨ x = b := by
    intro l
    induction l with
    | nil => intro b x hx; simp at hx
    | cons c l2 ih =>
      intro b x hx
      by_cases hbc : b ≠ c
      · rw [List.destutter'_cons_pos _ hbc]
        rcases List.mem_cons.mp hx with h | h
        · subst h
          left
          exact List.mem_cons_of_mem _ (List.mem_destutter' _ _ _)
        · rcases ih c x h with h2 | h2
          · left; exact List.mem_cons_of_mem _ h2
          · subst h2
            left
            exact List.mem_cons_of_mem _ (List.mem_destutter' _ _ _)
      · rw [List.destutter'_cons_neg _ hbc]
        push_neg at hbc
        rcases List.mem_cons.mp hx with h | h
        · right; rw [h, hbc]
        · exact ih b x h
  intro l x hx
  cases l with
  | nil => simp at hx
  | cons a l0 =>
    rw [List.destutter_cons']
    rcases List.mem_cons.mp hx with h | h
    · subst h; exact List.mem_destutter' _ _ _
    · rcases aux l0 a x h with h2 | h2
      · exact h2
      · subst h2; exact List.mem_destutter' _ _ _

/-- The missing-variable list of `interpolate_template` is always sorted
ascending and duplicate-free. -/
theorem interpolate_missing_sorted_nodup (t : Str) (vars : VarMap) :
    List.Sorted strLe (interpolate_template t vars).2 ∧
      (interpolate_template t vars).2.Nodup := by
  have hs : List.Sorted strLe
      (List.insertionSort strLe (interpGo vars t none).2) :=
    List.sorted_insertionSort strLe _
  have hsub := List.destutter_sublist (R := (· ≠ ·))
    (List.insertionSort strLe (interpGo vars t none).2)
  have hsorted : List.Sorted strLe (interpolate_template t vars).2 :=
    List.Pairwise.sublist hsub hs
  refine ⟨hsorted, sorted_chain_ne_nodup _ hsorted ?_⟩
  exact List.destutter_is_chain' _ _

/-- Membership in the final missing list, from membership in the raw
collected list. -/
theorem mem_interpolate_missing {t : Str} {vars : VarMap} {x : Str}
    (h : x ∈ (interpGo vars t none).2) : x ∈ (interpolate_template t vars).2 := by
  refine mem_destutter_ne _ x ?_
  exact ((List.perm_insertionSort strLe _).mem_iff).mpr h

/-- Scanning literal text in front of the rest of the template: as long as
no `\x7b\x7b` occurs inside `pre` or across its end, each byte of `pre` is
copied (re-encoded) and scanning continues on `rest`. -/
theorem interpGo_literal_front (vars : VarMap) :
    ∀ (pre rest : List Nat), hasPair 123 (pre ++ rest.take 1) = false →
      interpGo vars (pre ++ rest) none =
        (pre.flatMap utf8Bytes ++ (interpGo vars rest none).1,
          (interpGo vars rest none).2) := by
  intro pre
  induction pre with
  | nil => intro rest _; simp
  | cons b pre2 ih =>
    intro rest h
    cases pre2 with
    | nil =>
      cases rest with
      | nil => simp [interpGo]
      | cons c rest2 =>
        have hne : ¬(b = 123 ∧ c = 123) := hasPair_head_false h
        simp only [List.nil_append, List.cons_append, List.singleton_append]
        rw [show interpGo vars (b :: c :: rest2) none =
          (if b = 123 ∧ c = 123 then interpGo vars rest2 (some [])
           else
             ((utf8Bytes b ++ (interpGo vars (c :: rest2) none).1,
               (interpGo vars (c :: rest2) none).2) : Str × List Str)) from rfl]
        rw [if_neg hne]
        simp
    | cons c pre3 =>
      have hne : ¬(b = 123 ∧ c = 123) := by
        have : (b :: c :: pre3) ++ rest.take 1 = b :: c :: (pre3 ++ rest.take 1) := rfl
        rw [this] at h
        exact hasPair_head_false h
      have htail : hasPair 123 ((c :: pre3) ++ rest.take 1) = false :=
        hasPair_cons_false h
      have ih2 := ih rest htail
      rw [show (b :: c :: pre3) ++ rest = b :: (c :: (pre3 ++ rest)) from rfl]
      rw [show interpGo vars (b :: c :: (pre3 ++ rest)) none =
        (if b = 123 ∧ c = 123 then interpGo vars (pre3 ++ rest) (some [])
         else
           ((utf8Bytes b ++ (interpGo vars (c :: (pre3 ++ rest)) none).1,
             (interpGo vars (c :: (pre3 ++ rest)) none).2) : Str × List Str)) from rfl]
      rw [if_neg hne]
      rw [show (c : Nat) :: (pre3 ++ rest) = (c :: pre3) ++ rest from rfl]
      rw [ih2]
      simp

/-- Scanning the inside of a token: bytes are collected raw until the first
`\x7d\x7d`, which triggers `tokenStep` on the collected name. -/
theorem interpGo_scan (vars : VarMap) :
    ∀ (nameRaw : List Nat), hasPair 125 (nameRaw ++ [125]) = false →
      ∀ (acc rest : List Nat),
        interpGo vars (nameRaw ++ (125 :: 125 :: rest)) (some acc) =
          tokenStep vars (acc.reverse ++ nameRaw) (interpGo vars rest none) := by
  intro nameRaw
  induction nameRaw with
  | nil =>
    intro _ acc rest
    simp only [List.nil_append, List.append_nil]
    rw [show interpGo vars (125 :: 125 :: rest) (some acc) =
      (if (125 : Nat) = 125 ∧ (125 : Nat) = 125 then
        tokenStep vars acc.reverse (interpGo vars rest none)
      else interpGo vars (125 :: rest) (some (125 :: acc))) from rfl]
    simp
  | cons b nr2 ih =>
    intro h acc rest
    cases nr2 with
    | nil =>
      have hb : ¬(b = 125 ∧ (125 : Nat) = 125) := hasPair_head_false h
      have hb2 : b ≠ 125 := by
        intro hbe; exact hb ⟨hbe, rfl⟩
      simp only [List.singleton_append, List.cons_append, List.nil_append]
      rw [show interpGo vars (b :: 125 :: 125 :: rest) (some acc) =
        (if b = 125 ∧ (125 : Nat) = 125 then
          tokenStep vars acc.reverse (interpGo vars (125 :: rest) none)
        else interpGo vars (125 :: 125 :: rest) (some (b :: acc))) from rfl]
      rw [if_neg hb]
      rw [show interpGo vars (125 :: 125 :: rest) (some (b :: acc)) =
        (if (125 : Nat) = 125 ∧ (125 : Nat) = 125 then
          tokenStep vars (b :: acc).reverse (interpGo vars rest none)
        else interpGo vars (125 :: rest) (some (125 :: b :: acc))) from rfl]
      simp
    | cons c nr3 =>
      have hb : ¬(b = 125 ∧ c = 125) := by
        have : (b :: c :: nr3) ++ ([125] : List Nat) = b :: c :: (nr3 ++ [125]) := rfl
        rw [this] at h
        exact hasPair_head_false h
      have htail : hasPair 125 ((c :: nr3) ++ [125]) = false := hasPair_cons_false h
      have ih2 := ih htail (b :: acc) rest
      rw [show (b :: c :: nr3) ++ (125 :: 125 :: rest) =
        b :: ((c :: nr3) ++ (125 :: 125 :: rest)) from rfl]
      rw [show interpGo vars (b :: ((c :: nr3) ++ (125 :: 125 :: rest))) (some acc) =
        (if b = 125 ∧ c = 125 then
          tokenStep vars acc.reverse
            (interpGo vars (nr3 ++ (125 :: 125 :: rest)) none)
        else interpGo vars ((c :: nr3) ++ (125 :: 125 :: rest)) (some (b :: acc)))
        from rfl]
      rw [if_neg hb, ih2]
      simp

/-- A complete token at the start of the scan. -/
theorem interpGo_token (vars : VarMap) (nameRaw rest : List Nat)
    (h : hasPair 125 (nameRaw ++ [125]) = false) :
    interpGo vars (123 :: 123 :: (nameRaw ++ (125 :: 125 :: rest))) none =
      tokenStep vars nameRaw (interpGo vars rest none) := by
  cases hnr : nameRaw ++ (125 :: 125 :: rest) with
  | nil => simp at hnr
  | cons c rest2 =>
    rw [show interpGo vars (123 :: 123 :: (c :: rest2)) none =
      (if (123 : Nat) = 123 ∧ (123 : Nat) = 123 then
        interpGo vars (c :: rest2) (some [])
      else
        ((utf8Bytes 123 ++ (interpGo vars (123 :: c :: rest2) none).1,
          (interpGo vars (123 :: c :: rest2) none).2) : Str × List Str)) from rfl]
    rw [if_pos ⟨rfl, rfl⟩, ← hnr, interpGo_scan vars nameRaw h [] rest]
    simp

/-- C8: a token whose non-empty trimmed name is not in the variable map is
kept literally in the output and its trimmed name is recorded; the
missing-variable list is sorted and duplicate-free; and a segment carries
exactly the single `warn`/`missing_variable` message iff at least one
variable was missing. -/
theorem C8_missing_variable_handling
    (pre nameRaw post : Str) (vars : VarMap) (run_id created_at : Str)
    (hpre : hasPair 123 (pre ++ [123]) = false)
    (hname : hasPair 125 (nameRaw ++ [125]) = false)
    (hne : trimBytes nameRaw ≠ ([] : List Nat))
    (hmiss : lookupVar vars (trimBytes nameRaw) = none) :
    (∀ t : Str, List.Sorted strLe (interpolate_template t vars).2 ∧
        (interpolate_template t vars).2.Nodup) ∧
    (∃ u w : Str,
      (interpolate_template (pre ++ (tokenBytes nameRaw ++ post)) vars).1 =
        u ++ (tokenBytes nameRaw ++ w)) ∧
    (trimBytes nameRaw ∈
      (interpolate_template (pre ++ (tokenBytes nameRaw ++ post)) vars).2) ∧
    (∀ (nodes : List EngineNode) (style : OutputStyle),
      ∀ seg ∈ (render_with_trace nodes vars style run_id created_at).segments,
        ((seg.messages = [missingVarMessage seg.missing_variables] ∧
            (missingVarMessage seg.missing_variables).severity = .warn ∧
            (missingVarMessage seg.missing_variables).code = bytes "missing_variable") ↔
          seg.missing_variables ≠ [])) := by
  have hsh : tokenBytes nameRaw ++ post =
      123 :: 123 :: (nameRaw ++ (125 :: 125 :: post)) := by
    simp [tokenBytes]
  have hrest1 : (123 :: 123 :: (nameRaw ++ (125 :: 125 :: post)) : List Nat).take 1 =
      ([123] : List Nat) := rfl
  have hgo : interpGo vars (pre ++ (tokenBytes nameRaw ++ post)) none =
      (pre.flatMap utf8Bytes ++
        (tokenStep vars nameRaw (interpGo vars post none)).1,
        (tokenStep vars nameRaw (interpGo vars post none)).2) := by
    rw [hsh]
    rw [interpGo_literal_front vars pre _ (by rw [hrest1]; exact hpre)]
    rw [interpGo_token vars nameRaw post hname]
  have hts : tokenStep vars nameRaw (interpGo vars post none) =
      (tokenBytes nameRaw ++ (interpGo vars post none).1,
        trimBytes nameRaw :: (interpGo vars post none).2) := by
    simp [tokenStep, hne, hmiss]
  refine ⟨fun t => interpolate_missing_sorted_nodup t vars, ?_, ?_, ?_⟩
  · refine ⟨pre.flatMap utf8Bytes, (interpGo vars post none).1, ?_⟩
    show (interpGo vars (pre ++ (tokenBytes nameRaw ++ post)) none).1 = _
    rw [hgo, hts]
  · apply mem_interpolate_missing
    rw [hgo, hts]
    simp
  · intro nodes style seg hseg
    simp only [render_with_trace, List.mem_map] at hseg
    obtain ⟨n, _, hn⟩ := hseg
    subst hn
    constructor
    · rintro ⟨hmsg, -, -⟩
      intro hempty
      rw [show (renderSegment vars style n).missing_variables =
        (interpolate_template n.content vars).2 from rfl] at hempty
      rw [show (renderSegment vars style n).messages =
        (if (interpolate_template n.content vars).2 = [] then []
         else [missingVarMessage (interpolate_template n.content vars).2]) from rfl,
        if_pos hempty] at hmsg
      exact List.noConfusion hmsg
    · intro hnonempty
      rw [show (renderSegment vars style n).missing_variables =
        (interpolate_template n.content vars).2 from rfl] at hnonempty ⊢
      rw [show (renderSegment vars style n).messages =
        (if (interpolate_template n.content vars).2 = [] then []
         else [missingVarMessage (interpolate_template n.content vars).2]) from rfl,
        if_neg hnonempty]
      exact ⟨rfl, rfl, rfl⟩

/-- C8 witness: the spec's Scenario C template `Hello \x7b\x7bmissing\x7d\x7d`
with an empty variable map. -/
theorem C8_missing_variable_handling_witness :
    hasPair 123 (bytes "Hello " ++ [123]) = false ∧
    hasPair 125 (bytes "missing" ++ [125]) = false ∧
    trimBytes (bytes "missing") ≠ ([] : List Nat) ∧
    lookupVar [] (trimBytes (bytes "missing")) = none ∧
    (trimBytes (bytes "missing") ∈
      (interpolate_template (bytes "Hello " ++ (tokenBytes (bytes "missing") ++ []))
        []).2) :=
  ⟨by decide, by decide, by decide, rfl,
    (C8_missing_variable_handling (bytes "Hello ") (bytes "missing") [] []
      (bytes "r") (bytes "c") (by decide) (by decide) (by decide) rfl).2.2.1⟩

/-! ## Supporting lemmas: clamping -/

theorem clampCutGo_le (maxB : Nat) :
    ∀ (l : List Nat) (idx cut : Nat), cut ≤ maxB →
      clampCutGo maxB l idx cut ≤ maxB := by
  intro l
  induction l with
  | nil => intro idx cut h; exact h
  | cons b rest ih =>
    intro idx cut h
    rw [show clampCutGo maxB (b :: rest) idx cut =
      (if isCharBoundary b ∧ idx > maxB then cut
       else clampCutGo maxB rest (idx + 1) (if isCharBoundary b then idx else cut))
      from rfl]
    split
    · exact h
    · rename_i hcond
      apply ih
      by_cases hb : isCharBoundary b
      · simp only [hb, if_true]
        by_contra hgt
        exact hcond ⟨hb, by omega⟩
      · simp only [hb, if_false]
        exact h

theorem clampCutGo_boundary (maxB : Nat) (s : List Nat) :
    ∀ (l : List Nat) (k cut : Nat), l = s.drop k →
      (cut = 0 ∨ isCharBoundary (s.getD cut 0) = true) →
      (clampCutGo maxB l k cut = 0 ∨
        isCharBoundary (s.getD (clampCutGo maxB l k cut) 0) = true) := by
  intro l
  induction l with
  | nil => intro k cut _ h; exact h
  | cons b rest ih =>
    intro k cut hdrop h
    have hget : s.getD k 0 = b := by
      have h2 := List.head?_drop s k
      rw [← hdrop] at h2
      simp at h2
      simp [List.getD, h2.symm]
    have hrest : rest = s.drop (k + 1) := by
      have : (s.drop k).tail = rest := by rw [← hdrop]; rfl
      rw [← this, List.tail_drop]
    rw [show clampCutGo maxB (b :: rest) k cut =
      (if isCharBoundary b ∧ k > maxB then cut
       else clampCutGo maxB rest (k + 1) (if isCharBoundary b then k else cut))
      from rfl]
    split
    · exact h
    · apply ih (k + 1) _ hrest
      by_cases hb : isCharBoundary b
      · simp only [hb, if_true]
        right
        rw [hget]
        exact hb
      · simp only [hb, if_false]
        exact h

theorem clamp_string_length_le (s : Str) (maxB : Nat) :
    (clamp_string s maxB).1.length ≤ maxB := by
  unfold clamp_string
  split
  · rename_i h; simpa using h
  · rename_i h
    have hcut := clampCutGo_le maxB s 0 0 (Nat.zero_le _)
    simp only
    calc (s.take (clampCutGo maxB s 0 0)).length ≤ clampCutGo maxB s 0 0 :=
          by simp [List.length_take]
      _ ≤ maxB := hcut

/-- Every successful resolution (static or dynamic) carries a value clamped
to the byte budget. -/
theorem resolve_ok_clamped (oracle : Str → Str → VariableSpec → Except Str ResolvedValue)
    (d : Nat) (v : VariableSpec) (rv : ResolvedValue)
    (h : (resolve_variable_with_trace oracle d v).result = .ok rv) :
    rv.string_value.length ≤ MAX_VALUE_BYTES := by
  unfold resolve_variable_with_trace at h
  split at h
  · simp only [Except.ok.injEq] at h
    subst h
    exact clamp_string_length_le _ _
  · dsimp only at h
    split at h
    · simp at h
    · split at h
      · rename_i rv2 heq
        simp only [Except.ok.injEq] at h
        subst h
        exact clamp_string_length_le _ _
      · simp at h

/-- C10: strings at most 20,000 bytes long pass through unchanged with
`truncated = false`; longer strings are truncated to a prefix of at most
20,000 bytes ending on a character boundary, with `truncated = true`; and
every value a resolution returns is clamped. -/
theorem C10_clamp_string (s : Str) :
    (s.length ≤ MAX_VALUE_BYTES → clamp_string s MAX_VALUE_BYTES = (s, false)) ∧
    (MAX_VALUE_BYTES < s.length →
      (clamp_string s MAX_VALUE_BYTES).2 = true ∧
      (clamp_string s MAX_VALUE_BYTES).1.length ≤ MAX_VALUE_BYTES ∧
      (∃ rest : Str, (clamp_string s MAX_VALUE_BYTES).1 ++ rest = s ∧
        ((clamp_string s MAX_VALUE_BYTES).1 = [] ∨
          isCharBoundary (rest.headD 0) = true))) ∧
    (∀ (oracle : Str → Str → VariableSpec → Except Str ResolvedValue)
        (d : Nat) (v : VariableSpec) (rv : ResolvedValue),
      (resolve_variable_with_trace oracle d v).result = .ok rv →
        rv.string_value.length ≤ MAX_VALUE_BYTES) := by
  refine ⟨?_, ?_, fun oracle d v rv h => resolve_ok_clamped oracle d v rv h⟩
  · intro h
    simp [clamp_string, h]
  · intro h
    have hno : ¬ s.length ≤ MAX_VALUE_BYTES := by omega
    have hclamp : clamp_string s MAX_VALUE_BYTES =
        (s.take (clampCutGo MAX_VALUE_BYTES s 0 0), true) := by
      simp [clamp_string, hno]
    refine ⟨by rw [hclamp], clamp_string_length_le s _, ?_⟩
    set cut := clampCutGo MAX_VALUE_BYTES s 0 0 with hcutdef
    refine ⟨s.drop cut, ?_, ?_⟩
    · rw [hclamp]
      exact List.take_append_drop cut s
    · have hbd := clampCutGo_boundary MAX_VALUE_BYTES s s 0 0 (by simp) (Or.inl rfl)
      rw [← hcutdef] at hbd
      rcases hbd with h0 | hb
      · left
        rw [hclamp, h0]
        rfl
      · right
        have hlt : cut < s.length := by
          have := clampCutGo_le MAX_VALUE_BYTES s 0 0 (Nat.zero_le _)
          rw [← hcutdef] at this
          omega
        have hdr : s.drop cut = s.getD cut 0 :: s.drop (cut + 1) := by
          rw [List.drop_eq_getElem_cons hlt]
          congr 1
          simp [List.getD, List.getElem?_eq_getElem hlt]
        rw [hdr]
        simpa using hb

/-- C10 witness: a 20,001-byte ASCII string is truncated to a 20,000-byte
boundary-aligned prefix. -/
theorem C10_clamp_string_witness :
    MAX_VALUE_BYTES < (List.replicate 20001 97 : Str).length ∧
    ((clamp_string (List.replicate 20001 97) MAX_VALUE_BYTES).2 = true ∧
      (clamp_string (List.replicate 20001 97) MAX_VALUE_BYTES).1.length ≤
        MAX_VALUE_BYTES ∧
      (∃ rest : Str,
        (clamp_string (List.replicate 20001 97) MAX_VALUE_BYTES).1 ++ rest =
          List.replicate 20001 97 ∧
        ((clamp_string (List.replicate 20001 97) MAX_VALUE_BYTES).1 = [] ∨
          isCharBoundary (rest.headD 0) = true))) :=
  ⟨by simp only [List.length_replicate, MAX_VALUE_BYTES]; omega,
    (C10_clamp_string (List.replicate 20001 97)).2.1
      (by simp only [List.length_replicate, MAX_VALUE_BYTES]; omega)⟩

/-! ## Concrete fixtures used by counterexamples and witnesses -/

/-- A backend oracle that always fails; for unknown-scheme inputs it is
never consulted. -/
def errOracle : Str → Str → VariableSpec → Except Str ResolvedValue :=
  fun _ _ _ => .error (bytes "unused")

def zeroDur : VariableSpec → Nat := fun _ => 0

def exNodeHi : StoredFlowNode :=
  { id := bytes "n1", label := bytes "L", node_type := bytes "text", content := bytes "hi" }

/-- A node whose template is the single token `\x7b\x7bname\x7d\x7d`. -/
def exNodeVar : StoredFlowNode :=
  { id := bytes "n1", label := bytes "L", node_type := bytes "text",
    content := tokenBytes (bytes "name") }

/-- A dynamic variable with the unknown-scheme resolver `badscheme://x`. -/
def exVarBad : VariableSpec :=
  { id := bytes "v1", name := bytes "name", type := bytes "dynamic", value := [],
    resolver := some (bytes "badscheme://x") }

/-- The failed-row branch on a non-object row, over a project with one
content node. -/
def exFailedRowResult : RowResult :=
  replayRow errOracle zeroDur (fun _ => true) (projectEngineNodes [exNodeHi] []) []
    (bytes "p") (bytes "d") (Json.str (bytes "x")) 0 (bytes "run_1_0") (bytes "1")

/-! ## C1: re-derivability of `RunRecord` fields from `trace` -/

set_option maxRecDepth 10000 in
/-- C1 counterexample: for a failed row the persisted record keeps the full
rendered trace but digests the empty string, so `outputDigest` is not
re-derivable from `trace.text`. -/
theorem C1_failed_row_digest_counterexample :
    exFailedRowResult.record.status = bytes "failed" ∧
    exFailedRowResult.record.output_digest ≠
      digest_text exFailedRowResult.record.trace.text := by
  constructor
  · rfl
  · decide

/-- C1 (amended): `missingVariablesCount` is always re-derivable from the
trace; `outputDigest` equals `base64(SHA-256(trace.text))` for records with
status `succeeded`, while records with status `failed` carry the digest of
the empty string instead. -/
theorem C1_record_rederivable_amended
    (oracle : Str → Str → VariableSpec → Except Str ResolvedValue)
    (dur : VariableSpec → Nat) (write : RunRecord → Bool)
    (engineNodes : List EngineNode) (projectVars : List VariableSpec)
    (projectId datasetId : Str) (row : Json) (rowIndex : Nat)
    (run_id created_at : Str) :
    (replayRow oracle dur write engineNodes projectVars projectId datasetId row
        rowIndex run_id created_at).record.missing_variables_count =
      missing_variables_count
        (replayRow oracle dur write engineNodes projectVars projectId datasetId row
          rowIndex run_id created_at).record.trace ∧
    ((replayRow oracle dur write engineNodes projectVars projectId datasetId row
        rowIndex run_id created_at).record.status = bytes "succeeded" →
      (replayRow oracle dur write engineNodes projectVars projectId datasetId row
          rowIndex run_id created_at).record.output_digest =
        digest_text
          (replayRow oracle dur write engineNodes projectVars projectId datasetId row
            rowIndex run_id created_at).record.trace.text) ∧
    ((replayRow oracle dur write engineNodes projectVars projectId datasetId row
        rowIndex run_id created_at).record.status = bytes "failed" →
      (replayRow oracle dur write engineNodes projectVars projectId datasetId row
          rowIndex run_id created_at).record.output_digest = digest_text []) := by
  cases hrow : row_to_variable_overrides row with
  | error e =>
    refine ⟨?_, ?_, ?_⟩ <;> simp [replayRow, hrow]
    intro hst
    exact absurd hst (by decide)
  | ok ov =>
    refine ⟨?_, ?_, ?_⟩ <;> simp [replayRow, hrow]
    intro hst
    exact absurd hst (by decide)

/-- C1 witness: a succeeded record on an empty-object row re-derives its
digest from the trace text. -/
theorem C1_record_rederivable_witness :
    (replayRow errOracle zeroDur (fun _ => true) (projectEngineNodes [exNodeHi] [])
        [] (bytes "p") (bytes "d") (Json.obj []) 0 (bytes "r") (bytes "c")).record.status =
      bytes "succeeded" ∧
    (replayRow errOracle zeroDur (fun _ => true) (projectEngineNodes [exNodeHi] [])
        [] (bytes "p") (bytes "d") (Json.obj []) 0 (bytes "r") (bytes "c")).record.output_digest =
      digest_text
        (replayRow errOracle zeroDur (fun _ => true) (projectEngineNodes [exNodeHi] [])
          [] (bytes "p") (bytes "d") (Json.obj []) 0 (bytes "r")
          (bytes "c")).record.trace.text :=
  ⟨rfl,
    (C1_record_rederivable_amended errOracle zeroDur (fun _ => true)
      (projectEngineNodes [exNodeHi] []) [] (bytes "p") (bytes "d") (Json.obj []) 0
      (bytes "r") (bytes "c")).2.1 rfl⟩

/-! ## C4: non-object rows -/

/-- C4 counterexample: for a non-object row the persisted record's trace
text is the full labeled render of the project nodes under an empty
variable map, not the empty string. -/
theorem C4_failed_row_text_counterexample :
    exFailedRowResult.record.status = bytes "failed" ∧
    exFailedRowResult.record.trace.text = bytes "--- L ---\nhi" ∧
    exFailedRowResult.record.trace.text ≠ ([] : List Nat) := by
  refine ⟨rfl, by decide, by decide⟩

/-- C4 (amended): a non-object row is recorded with status `failed` and the
digest of the empty string, while its trace is the full render of the
project nodes with an empty variable map (so the recorded text need not be
empty); the row never aborts the request, and the batch continues with the
subsequent rows. -/
theorem C4_failed_row_amended
    (oracle : Str → Str → VariableSpec → Except Str ResolvedValue)
    (dur : VariableSpec → Nat) (write : RunRecord → Bool)
    (engineNodes : List EngineNode) (projectVars : List VariableSpec)
    (projectId datasetId : Str) (row : Json) (rowIndex : Nat)
    (run_id created_at : Str) (err : Str)
    (hrow : row_to_variable_overrides row = .error err) :
    (replayRow oracle dur write engineNodes projectVars projectId datasetId row
        rowIndex run_id created_at).record.status = bytes "failed" ∧
    (replayRow oracle dur write engineNodes projectVars projectId datasetId row
        rowIndex run_id created_at).record.output_digest = digest_text [] ∧
    (replayRow oracle dur write engineNodes projectVars projectId datasetId row
        rowIndex run_id created_at).record.trace =
      render_with_trace engineNodes [] .labeled run_id created_at ∧
    (replayRow oracle dur write engineNodes projectVars projectId datasetId row
        rowIndex run_id created_at).aborted = false ∧
    (∀ (runIdAt createdAtAt : Nat → Str) (rest : List Json) (i : Nat)
        (s : List RunSummary),
      replayRows oracle dur write engineNodes projectVars projectId datasetId
          runIdAt createdAtAt rest (i + 1) = .ok s →
      replayRows oracle dur write engineNodes projectVars projectId datasetId
          runIdAt createdAtAt (row :: rest) i =
        .ok ((replayRow oracle dur write engineNodes projectVars projectId datasetId
          row i (runIdAt i) (createdAtAt i)).summary :: s)) := by
  refine ⟨by simp [replayRow, hrow], by simp [replayRow, hrow],
    by simp [replayRow, hrow], by simp [replayRow, hrow], ?_⟩
  intro runIdAt createdAtAt rest i s hrest
  have habort : (replayRow oracle dur write engineNodes projectVars projectId
      datasetId row i (runIdAt i) (createdAtAt i)).aborted = false := by
    simp [replayRow, hrow]
  simp [replayRows, habort, hrest]

/-- C4 witness: the concrete non-object row `"x"`. -/
theorem C4_failed_row_witness :
    row_to_variable_overrides (Json.str (bytes "x")) = .error (bytes "row_invalid") ∧
    exFailedRowResult.record.status = bytes "failed" ∧
    exFailedRowResult.record.output_digest = digest_text [] :=
  ⟨rfl,
    (C4_failed_row_amended errOracle zeroDur (fun _ => true)
      (projectEngineNodes [exNodeHi] []) [] (bytes "p") (bytes "d")
      (Json.str (bytes "x")) 0 (bytes "run_1_0") (bytes "1") (bytes "row_invalid")
      rfl).1,
    (C4_failed_row_amended errOracle zeroDur (fun _ => true)
      (projectEngineNodes [exNodeHi] []) [] (bytes "p") (bytes "d")
      (Json.str (bytes "x")) 0 (bytes "run_1_0") (bytes "1") (bytes "row_invalid")
      rfl).2.1⟩

/-! ## C5: persistence failures -/

/-- C5 counterexample: with a write oracle that always fails, a failed-parse
row still does not abort the replay — the write error is discarded
(`let _ = write_run_record(..)`), and the loop continues to an `ok`
response. -/
theorem C5_write_failure_counterexample :
    (replayRow errOracle zeroDur (fun _ => false) (projectEngineNodes [exNodeHi] [])
        [] (bytes "p") (bytes "d") (Json.str (bytes "x")) 0 (bytes "run_1_0")
        (bytes "1")).aborted = false ∧
    (replayRows errOracle zeroDur (fun _ => false) (projectEngineNodes [exNodeHi] [])
        [] (bytes "p") (bytes "d") (fun _ => bytes "run_1_0") (fun _ => bytes "1")
        [Json.str (bytes "x")] 0).isOk = true := by
  exact ⟨rfl, rfl⟩

/-- C5 (amended): a write failure is a hard `write_failed` error for rows
whose overrides parsed (the success branch), but for failed-parse rows the
write result is ignored and the replay continues. -/
theorem C5_write_failure_amended
    (oracle : Str → Str → VariableSpec → Except Str ResolvedValue)
    (dur : VariableSpec → Nat) (write : RunRecord → Bool)
    (engineNodes : List EngineNode) (projectVars : List VariableSpec)
    (projectId datasetId : Str) (row : Json) (rowIndex : Nat)
    (run_id created_at : Str) :
    (∀ ov, row_to_variable_overrides row = .ok ov →
      ((replayRow oracle dur write engineNodes projectVars projectId datasetId row
          rowIndex run_id created_at).aborted = true ↔
        write (replayRow oracle dur write engineNodes projectVars projectId datasetId
          row rowIndex run_id created_at).record = false)) ∧
    (∀ err, row_to_variable_overrides row = .error err →
      (replayRow oracle dur write engineNodes projectVars projectId datasetId row
          rowIndex run_id created_at).aborted = false) ∧
    (∀ (runIdAt createdAtAt : Nat → Str) (rest : List Json) (i : Nat),
      (replayRow oracle dur write engineNodes projectVars projectId datasetId row i
          (runIdAt i) (createdAtAt i)).aborted = true →
      replayRows oracle dur write engineNodes projectVars projectId datasetId
          runIdAt createdAtAt (row :: rest) i = .error (bytes "write_failed")) := by
  refine ⟨?_, ?_, ?_⟩
  · intro ov hrow
    simp [replayRow, hrow]
  · intro err hrow
    simp [replayRow, hrow]
  · intro runIdAt createdAtAt rest i habort
    simp [replayRows, habort]

/-- C5 witness: a write failure on a successfully parsed row aborts. -/
theorem C5_write_failure_witness :
    row_to_variable_overrides (Json.obj []) = .ok [] ∧
    ((replayRow errOracle zeroDur (fun _ => false) (projectEngineNodes [exNodeHi] [])
        [] (bytes "p") (bytes "d") (Json.obj []) 0 (bytes "r") (bytes "c")).aborted =
        true ↔ (fun (_ : RunRecord) => false)
          (replayRow errOracle zeroDur (fun _ => false)
            (projectEngineNodes [exNodeHi] []) [] (bytes "p") (bytes "d")
            (Json.obj []) 0 (bytes "r") (bytes "c")).record = false) :=
  ⟨rfl,
    (C5_write_failure_amended errOracle zeroDur (fun _ => false)
      (projectEngineNodes [exNodeHi] []) [] (bytes "p") (bytes "d") (Json.obj []) 0
      (bytes "r") (bytes "c")).1 [] rfl⟩

/-! ## C2: dynamic-variable resolution failures -/

theorem lookupVar_insert_ne {m : VarMap} {n k v : Str} (h : n ≠ k) :
    lookupVar (insertVar m n v) k = lookupVar m k := by
  simp [lookupVar, insertVar, List.find?, h]

/-- The replay variable loop records exactly one trace message per
variable, in declaration order, regardless of success. -/
theorem resolveVarsLoop_messages
    (oracle : Str → Str → VariableSpec → Except Str ResolvedValue)
    (dur : VariableSpec → Nat) :
    ∀ (vs : List VariableSpec) (m : VarMap) (msgs : List TraceMessage),
      (resolveVarsLoop oracle dur vs m msgs).2 =
        msgs ++ vs.map (fun v => (resolve_variable_with_trace oracle (dur v) v).trace_message) := by
  intro vs
  induction vs with
  | nil => intro m msgs; simp [resolveVarsLoop]
  | cons v rest ih =>
    intro m msgs
    rw [show resolveVarsLoop oracle dur (v :: rest) m msgs =
      resolveVarsLoop oracle dur rest
        (match (resolve_variable_with_trace oracle (dur v) v).result with
         | .ok value => insertVar m v.name value.string_value
         | .error _ => m)
        (msgs ++ [(resolve_variable_with_trace oracle (dur v) v).trace_message]) from rfl]
    rw [ih]
    simp

/-- If every variable named `k` fails to resolve, the loop leaves `k`
unbound: no placeholder is inserted into the map. -/
theorem resolveVarsLoop_failed_unbound
    (oracle : Str → Str → VariableSpec → Except Str ResolvedValue)
    (dur : VariableSpec → Nat) :
    ∀ (vs : List VariableSpec) (m : VarMap) (msgs : List TraceMessage) (k : Str),
      (∀ v ∈ vs, v.name = k →
        ∃ e, (resolve_variable_with_trace oracle (dur v) v).result = .error e) →
      lookupVar (resolveVarsLoop oracle dur vs m msgs).1 k = lookupVar m k := by
  intro vs
  induction vs with
  | nil => intro m msgs k _; rfl
  | cons v rest ih =>
    intro m msgs k hfail
    rw [show resolveVarsLoop oracle dur (v :: rest) m msgs =
      resolveVarsLoop oracle dur rest
        (match (resolve_variable_with_trace oracle (dur v) v).result with
         | .ok value => insertVar m v.name value.string_value
         | .error _ => m)
        (msgs ++ [(resolve_variable_with_trace oracle (dur v) v).trace_message]) from rfl]
    cases hres : (resolve_variable_with_trace oracle (dur v) v).result with
    | ok value =>
      by_cases hname : v.name = k
      · obtain ⟨e, he⟩ := hfail v (by simp) hname
        rw [hres] at he
        exact absurd he (by simp)
      · show lookupVar (resolveVarsLoop oracle dur rest
            (insertVar m v.name value.string_value)
            (msgs ++ [(resolve_variable_with_trace oracle (dur v) v).trace_message])).1 k =
          lookupVar m k
        rw [ih (insertVar m v.name value.string_value)
          (msgs ++ [(resolve_variable_with_trace oracle (dur v) v).trace_message]) k
          (fun x hx hn => hfail x (by simp [hx]) hn)]
        exact lookupVar_insert_ne hname
    | error e =>
      show lookupVar (resolveVarsLoop oracle dur rest m
          (msgs ++ [(resolve_variable_with_trace oracle (dur v) v).trace_message])).1 k =
        lookupVar m k
      exact ih m (msgs ++ [(resolve_variable_with_trace oracle (dur v) v).trace_message])
        k (fun x hx hn => hfail x (by simp [hx]) hn)

/-- C2 (amended): in the replay path an unknown-scheme resolver such as
`badscheme://x` fails with a `warn`/`variable_resolve_failed` message whose
details carry the classified `errorCode = unsupported_scheme`; the failing
variable is simply left out of the variable map (no `[name]` placeholder),
and the failure never aborts the row.  In the preview path
(`execute_preview`) a failure does insert the `[name]` placeholder with a
`warn` message carrying no classified code — but an unknown scheme does not
fail there at all: the raw value is passed through. -/
theorem C2_resolution_failure_amended :
    (∀ (oracle : Str → Str → VariableSpec → Except Str ResolvedValue) (d : Nat)
        (v : VariableSpec), v.type = bytes "dynamic" →
        v.resolver = some (bytes "badscheme://x") →
      (resolve_variable_with_trace oracle d v).result =
        .error (bytes "不支持的 resolver scheme：badscheme") ∧
      (resolve_variable_with_trace oracle d v).trace_message.severity = .warn ∧
      (resolve_variable_with_trace oracle d v).trace_message.code =
        bytes "variable_resolve_failed" ∧
      ((resolve_variable_with_trace oracle d v).trace_message.details.map
        MsgDetails.errorCode) = some (some (bytes "unsupported_scheme"))) ∧
    (∀ (oracle : Str → Str → VariableSpec → Except Str ResolvedValue)
        (dur : VariableSpec → Nat) (vs : List VariableSpec) (k : Str),
      (∀ v ∈ vs, v.name = k →
        ∃ e, (resolve_variable_with_trace oracle (dur v) v).result = .error e) →
      lookupVar (resolveVarsLoop oracle dur vs [] []).1 k = none) ∧
    (∀ (oracle : Str → Str → VariableSpec → Except Str ResolvedValue)
        (dur : VariableSpec → Nat) (vs : List VariableSpec),
      (resolveVarsLoop oracle dur vs [] []).2 =
        vs.map (fun v => (resolve_variable_with_trace oracle (dur v) v).trace_message)) ∧
    (∀ (oracle : Str → Str → VariableSpec → Except Str ResolvedValue)
        (dur : VariableSpec → Nat) (write : RunRecord → Bool)
        (engineNodes : List EngineNode) (projectVars : List VariableSpec)
        (projectId datasetId : Str) (row : Json) (rowIndex : Nat)
        (run_id created_at : Str),
      (∀ rec, write rec = true) →
      (replayRow oracle dur write engineNodes projectVars projectId datasetId row
        rowIndex run_id created_at).aborted = false) ∧
    (∀ (po : Str → Str → VariableSpec → Except Str Str) (v : VariableSpec),
      v.type = bytes "dynamic" → v.resolver = some (bytes "badscheme://x") →
      resolve_variable_value po v = .ok v.value) ∧
    (∀ (po : Str → Str → VariableSpec → Except Str Str) (v : VariableSpec)
        (vs : List VariableSpec) (m : VarMap) (msgs : List TraceMessage) (err : Str),
      resolve_variable_value po v = .error err →
      executePreviewVars po (v :: vs) m msgs =
        executePreviewVars po vs (insertVar m v.name (91 :: (v.name ++ ([93] : List Nat))))
          (msgs ++ [{ severity := .warn
                      code := bytes "variable_resolve_failed"
                      message := bytes " " ++ v.name ++ bytes " " ++ err }])) := by
  refine ⟨?_, ?_, ?_, ?_, ?_, ?_⟩
  · intro oracle d v htype hres
    have hnotmem : ¬ (bytes "badscheme") ∈ knownSchemes := by decide
    simp only [resolve_variable_with_trace, htype, hres, Option.getD_some]
    rw [if_neg (show ¬ (bytes "dynamic" ≠ bytes "dynamic") from by simp)]
    rw [show trimBytes (bytes "badscheme://x") = bytes "badscheme://x" from by decide]
    rw [if_neg (show ¬ ((bytes "badscheme://x" : Str) = ([] : List Nat)) from by decide)]
    rw [show trimBytes (splitBeforeSep (bytes "badscheme://x")) = bytes "badscheme" from by
      decide]
    rw [show registryResolve oracle (bytes "badscheme") (bytes "badscheme://x") v =
      .error (bytes "不支持的 resolver scheme：" ++ bytes "badscheme") from by
        simp [registryResolve, hnotmem]]
    refine ⟨congrArg Except.error (by decide), rfl, rfl, ?_⟩
    exact congrArg (fun z : Str => some (some z))
      (show classify_error_code (bytes "不支持的 resolver scheme：" ++ bytes "badscheme") =
        bytes "unsupported_scheme" by decide)
  · intro oracle dur vs k hfail
    rw [resolveVarsLoop_failed_unbound oracle dur vs [] [] k hfail]
    rfl
  · intro oracle dur vs
    simpa using resolveVarsLoop_messages oracle dur vs [] []
  · intro oracle dur write engineNodes projectVars projectId datasetId row rowIndex
      run_id created_at hwrite
    cases hrow : row_to_variable_overrides row with
    | error e => simp [replayRow, hrow]
    | ok ov => simp [replayRow, hrow, hwrite]
  · intro po v htype hres
    simp only [resolve_variable_value, htype, hres, Option.getD_some]
    rw [if_neg (show ¬ (bytes "dynamic" ≠ bytes "dynamic") from by simp)]
    rw [show trimBytes (bytes "badscheme://x") = bytes "badscheme://x" from by decide]
    rw [if_neg (show ¬ (isPrefixB (bytes "chat://") (bytes "badscheme://x") = true) from
      by decide)]
    rw [if_neg (fun h => absurd h.1 (show ¬ (isPrefixB (bytes "sql://")
      (bytes "badscheme://x") = true) from by decide))]
    rw [if_neg (fun h => absurd h.1 (show ¬ (isPrefixB (bytes "sqlite://")
      (bytes "badscheme://x") = true) from by decide))]
    rw [if_neg (fun h => absurd h.1 (show ¬ (isPrefixB (bytes "neo4j://")
      (bytes "badscheme://x") = true) from by decide))]
    rw [if_neg (show ¬ (isPrefixB (bytes "milvus://") (bytes "badscheme://x") = true) from
      by decide)]
  · intro po v vs m msgs err hres
    rw [show executePreviewVars po (v :: vs) m msgs =
      (match resolve_variable_value po v with
       | .ok value => executePreviewVars po vs (insertVar m v.name value) msgs
       | .error e =>
           executePreviewVars po vs
             (insertVar m v.name (91 :: (v.name ++ ([93] : List Nat))))
             (msgs ++ [{ severity := .warn
                         code := bytes "variable_resolve_failed"
                         message := bytes " " ++ v.name ++ bytes " " ++ e }])) from rfl]
    rw [hres]

/-- The success-branch row of a replay whose only project variable has
resolver `badscheme://x` and whose only node is `\x7b\x7bname\x7d\x7d`. -/
def exBadSchemeRowResult : RowResult :=
  replayRow errOracle zeroDur (fun _ => true) (projectEngineNodes [exNodeVar] [])
    [exVarBad] (bytes "p") (bytes "d") (Json.obj []) 0 (bytes "run_1_0") (bytes "1")

/-- C2 counterexample: the failed resolution is traced with the classified
`unsupported_scheme` code, but the replay's variable map never receives
`[name]` — the rendered output keeps the raw `\x7b\x7bname\x7d\x7d`
placeholder and contains no `[name]`. -/
theorem C2_no_placeholder_counterexample :
    (exBadSchemeRowResult.record.trace.messages.map (fun m => m.code)) =
      [bytes "variable_resolve_failed"] ∧
    (exBadSchemeRowResult.record.trace.messages.map
        (fun m => m.details.map MsgDetails.errorCode)) =
      [some (some (bytes "unsupported_scheme"))] ∧
    exBadSchemeRowResult.record.trace.text =
      bytes "--- L ---" ++ ([10] : List Nat) ++ tokenBytes (bytes "name") ∧
    containsSub exBadSchemeRowResult.record.trace.text (bytes "[name]") = false := by
  exact ⟨by decide, by decide, by decide, by decide⟩

/-- C2 witness: the amended behaviour at the concrete `badscheme://x`
variable, in both the registry path and the preview path. -/
theorem C2_resolution_failure_witness :
    exVarBad.type = bytes "dynamic" ∧
    exVarBad.resolver = some (bytes "badscheme://x") ∧
    ((resolve_variable_with_trace errOracle 0 exVarBad).trace_message.details.map
      MsgDetails.errorCode) = some (some (bytes "unsupported_scheme")) ∧
    resolve_variable_value (fun _ _ _ => .error (bytes "x")) exVarBad =
      .ok exVarBad.value :=
  ⟨rfl, rfl,
    (C2_resolution_failure_amended.1 errOracle 0 exVarBad rfl rfl).2.2.2,
    C2_resolution_failure_amended.2.2.2.2.1 (fun _ _ _ => .error (bytes "x"))
      exVarBad rfl rfl⟩

/-! ## Supporting definitions and lemmas: the Kahn loop -/

/-- Number of kept edges into `x` whose source is in `S`: the decrements
`x` has received once every id of `S` has been popped. -/
def inFrom (nodes : List StoredFlowNode) (edges : List StoredFlowEdge)
    (S : List Str) (x : Str) : Nat :=
  ((keptEdges nodes edges).filter
    (fun e => decide (e.target = x) && decide (e.source ∈ S))).length

/-- Multiplicity of the kept edge `id → x`. -/
def multEdge (nodes : List StoredFlowNode) (edges : List StoredFlowEdge)
    (id x : Str) : Nat :=
  ((keptEdges nodes edges).filter
    (fun e => decide (e.source = id) && decide (e.target = x))).length

/-- `a` precedes `b` in the list `l` (some occurrence of `a` is strictly
before some occurrence of `b`). -/
def Precedes (l : List Str) (a b : Str) : Prop :=
  ∃ i < l.length, ∃ j < l.length, i < j ∧ l.getD i [] = a ∧ l.getD j [] = b

instance (l : List Str) (a b : Str) : Decidable (Precedes l a b) := by
  unfold Precedes
  infer_instance

/-- The directed relation of the kept edges. -/
def edgeRel (nodes : List StoredFlowNode) (edges : List StoredFlowEdge)
    (a b : Str) : Prop :=
  ∃ e ∈ keptEdges nodes edges, e.source = a ∧ e.target = b

theorem Precedes_append_right {l t : List Str} {a b : Str}
    (h : Precedes l a b) : Precedes (l ++ t) a b := by
  obtain ⟨i, hi, j, hj, hij, ha, hb⟩ := h
  refine ⟨i, by simp; omega, j, by simp; omega, hij, ?_, ?_⟩
  · rw [List.getD_append _ _ _ _ hi]; exact ha
  · rw [List.getD_append _ _ _ _ hj]; exact hb

theorem Precedes_append_new {l : List Str} {a b : Str} (h : a ∈ l) :
    Precedes (l ++ [b]) a b := by
  obtain ⟨i, hi, ha⟩ := List.mem_iff_getElem.mp h
  refine ⟨i, by simp; omega, l.length, by simp, hi, ?_, ?_⟩
  · rw [List.getD_append _ _ _ _ hi, List.getD_eq_getElem _ _ hi]; exact ha
  · rw [List.getD_append_right _ _ _ _ (le_refl _)]
    simp

/-- Position of the unique occurrence of an element. -/
def posIn : List Str → Str → Nat
  | [], _ => 0
  | x :: t, a => if x = a then 0 else posIn t a + 1

theorem posIn_eq_of_getD {l : List Str} {a : Str} (hnd : l.Nodup) :
    ∀ (i : Nat), i < l.length → l.getD i [] = a → posIn l a = i := by
  induction l with
  | nil => intro i hi _; simp at hi
  | cons x t ih =>
    intro i hi ha
    cases i with
    | zero =>
      simp only [List.getD] at ha
      simp at ha
      simp [posIn, ha]
    | succ i2 =>
      have hx : x ≠ a := by
        intro hxa
        have hmem : a ∈ t := by
          have h2 : t.getD i2 [] = a := by simpa [List.getD] using ha
          have hi2 : i2 < t.length := by simpa using hi
          rw [← h2, List.getD_eq_getElem _ _ hi2]
          exact List.getElem_mem hi2
        rw [← hxa] at hmem
        exact (List.nodup_cons.mp hnd).1 hmem
      simp only [posIn, if_neg hx]
      have := ih (List.nodup_cons.mp hnd).2 i2 (by simpa using hi)
        (by simpa [List.getD] using ha)
      omega

theorem Precedes_posIn_lt {l : List Str} {a b : Str} (hnd : l.Nodup)
    (h : Precedes l a b) : posIn l a < posIn l b := by
  obtain ⟨i, hi, j, hj, hij, ha, hb⟩ := h
  rw [posIn_eq_of_getD hnd i hi ha, posIn_eq_of_getD hnd j hj hb]
  exact hij

/-- Counting: filters with pointwise-implied predicates. -/
theorem length_filter_le_of_imp {α : Type} (p q : α → Bool) :
    ∀ L : List α, (∀ e ∈ L, q e = true → p e = true) →
      (L.filter q).length ≤ (L.filter p).length := by
  intro L
  induction L with
  | nil => intro _; simp
  | cons e L2 ih =>
    intro h
    have h2 := ih (fun x hx => h x (by simp [hx]))
    by_cases hq : q e = true
    · have hp := h e (by simp) hq
      simp [List.filter_cons, hq, hp]
      omega
    · rw [Bool.not_eq_true] at hq
      by_cases hp : p e = true
      · simp [List.filter_cons, hq, hp]
        omega
      · rw [Bool.not_eq_true] at hp
        simp [List.filter_cons, hq, hp]
        omega

theorem length_filter_lt_exists {α : Type} (p q : α → Bool) :
    ∀ L : List α, (L.filter q).length < (L.filter p).length →
      ∃ e ∈ L, p e = true ∧ q e = false := by
  intro L
  induction L with
  | nil => intro h; simp at h
  | cons e L2 ih =>
    intro h
    by_cases hq : q e = true
    · by_cases hp : p e = true
      · simp only [List.filter_cons, hq, hp, if_pos] at h
        simp only [List.length_cons] at h
        obtain ⟨x, hx, hpx, hqx⟩ := ih (by omega)
        exact ⟨x, by simp [hx], hpx, hqx⟩
      · have hle := length_filter_le_of_imp (fun x => true) q L2 (by simp)
        simp only [List.filter_cons, hq, if_pos] at h
        rw [Bool.not_eq_true] at hp
        rw [hp] at h
        simp only [Bool.false_eq_true, if_false, List.length_cons] at h
        obtain ⟨x, hx, hpx, hqx⟩ := ih (by omega)
        exact ⟨x, by simp [hx], hpx, hqx⟩
    · rw [Bool.not_eq_true] at hq
      by_cases hp : p e = true
      · exact ⟨e, by simp, hp, hq⟩
      · rw [Bool.not_eq_true] at hp
        simp only [List.filter_cons, hq, hp, Bool.false_eq_true, if_false] at h
        obtain ⟨x, hx, hpx, hqx⟩ := ih h
        exact ⟨x, by simp [hx], hpx, hqx⟩

theorem length_filter_add {α : Type} (p q : α → Bool) :
    ∀ L : List α, (∀ e ∈ L, ¬(p e = true ∧ q e = true)) →
      (L.filter (fun e => p e || q e)).length =
        (L.filter p).length + (L.filter q).length := by
  intro L
  induction L with
  | nil => intro _; simp
  | cons e L2 ih =>
    intro h
    have h2 := ih (fun x hx => h x (by simp [hx]))
    by_cases hp : p e = true
    · have hq : q e = false := by
        by_contra hq2
        rw [Bool.not_eq_false] at hq2
        exact h e (by simp) ⟨hp, hq2⟩
      simp [List.filter_cons, hp, hq, h2]
      omega
    · rw [Bool.not_eq_true] at hp
      by_cases hq : q e = true
      · simp [List.filter_cons, hp, hq, h2]
        omega
      · rw [Bool.not_eq_true] at hq
        simp [List.filter_cons, hp, hq, h2]

/-- Occurrence count in a list of ids. -/
def cntOcc (R : List Str) (x : Str) : Nat :=
  (R.filter (fun y => decide (y = x))).length

theorem cntOcc_nil (x : Str) : cntOcc [] x = 0 := rfl

theorem cntOcc_cons_self (R : List Str) (x : Str) :
    cntOcc (x :: R) x = cntOcc R x + 1 := by
  simp [cntOcc]

theorem cntOcc_cons_ne {r x : Str} (h : r ≠ x) (R : List Str) :
    cntOcc (r :: R) x = cntOcc R x := by
  simp [cntOcc, h]

theorem cntOcc_perm {R R2 : List Str} (h : R.Perm R2) (x : Str) :
    cntOcc R x = cntOcc R2 x :=
  (h.filter _).length_eq

theorem cntOcc_pos_of_mem {R : List Str} {x : Str} (h : x ∈ R) :
    0 < cntOcc R x := by
  induction R with
  | nil => simp at h
  | cons r R2 ih =>
    by_cases hr : r = x
    · subst hr; rw [cntOcc_cons_self]; omega
    · rw [cntOcc_cons_ne hr]
      exact ih (by rcases List.mem_cons.mp h with h2 | h2; exact absurd h2.symm hr; exact h2)

theorem mem_of_cntOcc_pos {R : List Str} {x : Str} (h : 0 < cntOcc R x) : x ∈ R := by
  induction R with
  | nil => simp [cntOcc] at h
  | cons r R2 ih =>
    by_cases hr : r = x
    · subst hr; simp
    · rw [cntOcc_cons_ne hr] at h
      exact List.mem_cons_of_mem _ (ih h)

theorem inFrom_nil (nodes : List StoredFlowNode) (edges : List StoredFlowEdge) (x : Str) :
    inFrom nodes edges [] x = 0 := by
  simp [inFrom]

theorem inFrom_le_indeg0 (nodes : List StoredFlowNode) (edges : List StoredFlowEdge)
    (S : List Str) (x : Str) : inFrom nodes edges S x ≤ indeg0 nodes edges x := by
  refine length_filter_le_of_imp _ _ _ (fun e _ h => ?_)
  rw [Bool.and_eq_true] at h
  exact h.1

theorem inFrom_append_single (nodes : List StoredFlowNode) (edges : List StoredFlowEdge)
    {S : List Str} {id : Str} (hid : id ∉ S) (x : Str) :
    inFrom nodes edges (S ++ [id]) x =
      inFrom nodes edges S x + multEdge nodes edges id x := by
  unfold inFrom multEdge
  rw [show (keptEdges nodes edges).filter
      (fun e => decide (e.target = x) && decide (e.source ∈ S ++ [id])) =
    (keptEdges nodes edges).filter
      (fun e => (decide (e.target = x) && decide (e.source ∈ S)) ||
        (decide (e.source = id) && decide (e.target = x))) from
    List.filter_congr (fun e _ => by
      by_cases ht : e.target = x <;> by_cases hsS : e.source ∈ S <;>
        by_cases hsi : e.source = id <;> simp [ht, hsS, hsi])]
  exact length_filter_add _ _ _ (fun e _ hpq => by
    rw [Bool.and_eq_true, Bool.and_eq_true] at hpq
    obtain ⟨⟨_, hS⟩, ⟨hi, _⟩⟩ := hpq
    rw [decide_eq_true_iff] at hS hi
    rw [hi] at hS
    exact hid hS)

theorem cntOcc_succs_eq_multEdge (nodes : List StoredFlowNode)
    (edges : List StoredFlowEdge) (id x : Str) :
    cntOcc (succs nodes edges id) x = multEdge nodes edges id x := by
  unfold cntOcc succs multEdge
  rw [List.filter_map]
  rw [List.length_map]
  rw [List.filter_filter]
  congr 1
  refine List.filter_congr (fun e _ => ?_)
  by_cases ht : e.target = x <;> by_cases hs : e.source = id <;>
    simp [ht, hs, Function.comp]

/-- A positive edge multiplicity out of `id` lands on a known id. -/
theorem multEdge_pos_target_known {nodes : List StoredFlowNode}
    {edges : List StoredFlowEdge} {id x : Str}
    (h : 0 < multEdge nodes edges id x) : x ∈ knownIds nodes := by
  unfold multEdge at h
  rcases hf : (keptEdges nodes edges).filter
      (fun e => decide (e.source = id) && decide (e.target = x)) with _ | ⟨e, rest⟩
  · rw [hf] at h; simp at h
  · have he : e ∈ (keptEdges nodes edges).filter
        (fun e => decide (e.source = id) && decide (e.target = x)) := by
      rw [hf]; simp
    rw [List.mem_filter] at he
    obtain ⟨hkept, hprop⟩ := he
    rw [Bool.and_eq_true] at hprop
    simp only [decide_eq_true_iff] at hprop
    unfold keptEdges at hkept
    rw [List.mem_filter, Bool.and_eq_true] at hkept
    have := hkept.2.2
    rw [decide_eq_true_iff] at this
    rw [← hprop.2]
    unfold knownIds
    rw [List.mem_dedup]
    exact this

/-- Behaviour of the inner decrement loop: in-degrees drop by the number of
occurrences in the successor list, and exactly the ids whose count reaches
their in-degree are pushed onto the ready list (each once). -/
theorem processSuccs_spec :
    ∀ (R : List Str) (indeg : Str → Nat) (ready : List Str),
      (∀ x, cntOcc R x ≤ indeg x) →
      (∀ y ∈ ready, indeg y = 0) →
      ready.Nodup →
      (∀ x, (processSuccs R indeg ready).1 x = indeg x - cntOcc R x) ∧
      (∀ y, y ∈ (processSuccs R indeg ready).2 ↔
        (y ∈ ready ∨ (0 < cntOcc R y ∧ indeg y = cntOcc R y))) ∧
      (processSuccs R indeg ready).2.Nodup := by
  intro R
  induction R with
  | nil =>
    intro indeg ready hA hB hN
    refine ⟨fun x => by simp [processSuccs, cntOcc], fun y => ?_, hN⟩
    simp [processSuccs, cntOcc]
  | cons r R2 ih =>
    intro indeg ready hA hB hN
    have hcr : cntOcc (r :: R2) r = cntOcc R2 r + 1 := cntOcc_cons_self R2 r
    have hge1 : 1 ≤ indeg r := by have := hA r; rw [hcr] at this; omega
    have hrnr : r ∉ ready := fun hmem => by have := hB r hmem; omega
    have hstep : processSuccs (r :: R2) indeg ready =
        processSuccs R2 (fun x => if x = r then indeg r - 1 else indeg x)
          (if indeg r - 1 = 0 then List.insertionSort strLe (ready ++ [r])
           else ready) := rfl
    have hmem2 : ∀ y,
        (y ∈ (if indeg r - 1 = 0 then List.insertionSort strLe (ready ++ [r])
          else ready)) ↔ (y ∈ ready ∨ (indeg r - 1 = 0 ∧ y = r)) := by
      intro y
      by_cases hd0 : indeg r - 1 = 0
      · rw [if_pos hd0, (List.perm_insertionSort strLe (ready ++ [r])).mem_iff]
        simp [hd0]
      · rw [if_neg hd0]
        simp [hd0]
    have hA2 : ∀ x, cntOcc R2 x ≤
        (fun x => if x = r then indeg r - 1 else indeg x) x := by
      intro x
      by_cases hx : x = r
      · subst hx
        show cntOcc R2 x ≤ if x = x then indeg x - 1 else indeg x
        rw [if_pos rfl]
        have := hA x
        rw [cntOcc_cons_self] at this
        omega
      · show cntOcc R2 x ≤ if x = r then indeg r - 1 else indeg x
        rw [if_neg hx]
        have := hA x
        rw [cntOcc_cons_ne (fun h => hx h.symm)] at this
        exact this
    have hB2 : ∀ y ∈ (if indeg r - 1 = 0 then
        List.insertionSort strLe (ready ++ [r]) else ready),
        (fun x => if x = r then indeg r - 1 else indeg x) y = 0 := by
      intro y hy
      rw [hmem2 y] at hy
      rcases hy with hy | ⟨hd0, hyr⟩
      · have hyy : y ≠ r := fun h => hrnr (h ▸ hy)
        simp only [if_neg hyy]
        exact hB y hy
      · subst hyr
        simp only [if_pos rfl]
        exact hd0
    have hN2 : (if indeg r - 1 = 0 then
        List.insertionSort strLe (ready ++ [r]) else ready).Nodup := by
      by_cases hd0 : indeg r - 1 = 0
      · rw [if_pos hd0]
        refine List.Nodup.perm ?_ (List.perm_insertionSort strLe (ready ++ [r])).symm
        rw [List.nodup_append]
        exact ⟨hN, List.nodup_singleton r, by simpa using hrnr⟩
      · rw [if_neg hd0]
        exact hN
    obtain ⟨ih1, ih2, ih3⟩ := ih _ _ hA2 hB2 hN2
    rw [hstep]
    refine ⟨?_, ?_, ih3⟩
    · intro x
      rw [ih1 x]
      show (if x = r then indeg r - 1 else indeg x) - cntOcc R2 x =
        indeg x - cntOcc (r :: R2) x
      by_cases hx : x = r
      · subst hx
        rw [if_pos rfl, cntOcc_cons_self]
        have := hA x
        rw [cntOcc_cons_self] at this
        omega
      · rw [if_neg hx, cntOcc_cons_ne (fun h => hx h.symm)]
    · intro y
      rw [ih2 y, hmem2 y]
      by_cases hyr : y = r
      · subst hyr
        have hcy := hA y
        rw [cntOcc_cons_self] at hcy
        have hcy2 : cntOcc R2 y ≤ indeg y - 1 := by omega
        rw [show (if y = y then indeg y - 1 else indeg y) = indeg y - 1 from
          if_pos rfl, cntOcc_cons_self]
        constructor
        · rintro ((hy | ⟨hd0, -⟩) | ⟨hpos, heq⟩)
          · exact absurd hy hrnr
          · right
            exact ⟨by omega, by omega⟩
          · right
            exact ⟨by omega, by omega⟩
        · rintro (hy | ⟨-, heq⟩)
          · exact absurd hy hrnr
          · by_cases hc0 : cntOcc R2 y = 0
            · left; right; exact ⟨by omega, rfl⟩
            · right; exact ⟨by omega, by omega⟩
      · have hne : r ≠ y := fun h => hyr h.symm
        rw [show (if y = r then indeg r - 1 else indeg y) = indeg y from
          if_neg hyr, cntOcc_cons_ne hne]
        constructor
        · rintro ((hy | ⟨-, hyr2⟩) | h)
          · exact Or.inl hy
          · exact absurd hyr2 hyr
          · exact Or.inr h
        · rintro (hy | h)
          · exact Or.inl (Or.inl hy)
          · exact Or.inr h

theorem length_filter_lt_of_witness {α : Type} (p q : α → Bool) :
    ∀ (L : List α) (e0 : α), e0 ∈ L → p e0 = true → q e0 = false →
      (∀ e ∈ L, q e = true → p e = true) →
      (L.filter q).length < (L.filter p).length := by
  intro L
  induction L with
  | nil => intro e0 h; simp at h
  | cons e L2 ih =>
    intro e0 he0 hp0 hq0 himp
    rcases List.mem_cons.mp he0 with he | he
    · subst he
      have hle := length_filter_le_of_imp p q L2 (fun x hx => himp x (by simp [hx]))
      simp [List.filter_cons, hp0, hq0]
      omega
    · by_cases hq : q e = true
      · have hp := himp e (by simp) hq
        have := ih e0 he hp0 hq0 (fun x hx => himp x (by simp [hx]))
        simp [List.filter_cons, hp, hq]
        omega
      · rw [Bool.not_eq_true] at hq
        have := ih e0 he hp0 hq0 (fun x hx => himp x (by simp [hx]))
        by_cases hp : p e = true
        · simp [List.filter_cons, hp, hq]
          omega
        · rw [Bool.not_eq_true] at hp
          simp [List.filter_cons, hp, hq]
          omega

theorem lookupNodeById_known {nodes : List StoredFlowNode} {id : Str}
    (h : id ∈ knownIds nodes) :
    ∃ n, lookupNodeById nodes id = some n ∧ n.id = id := by
  unfold knownIds nodeIds at h
  rw [List.mem_dedup, List.mem_map] at h
  obtain ⟨n0, hn0, hn0id⟩ := h
  have hmem : n0 ∈ nodes.filter (fun n => decide (n.id = id)) := by
    rw [List.mem_filter]
    exact ⟨hn0, by simp [hn0id]⟩
  unfold lookupNodeById
  rcases hfil : nodes.filter (fun n => decide (n.id = id)) with _ | ⟨m, rest⟩
  · rw [hfil] at hmem; simp at hmem
  · rw [hfil]
    have hlast := List.getLast?_eq_getLast (m :: rest) (by simp)
    refine ⟨(m :: rest).getLast (by simp), hlast, ?_⟩
    have hmem2 : (m :: rest).getLast (by simp) ∈
        nodes.filter (fun n => decide (n.id = id)) := by
      rw [hfil]
      exact List.getLast_mem _
    rw [List.mem_filter] at hmem2
    simpa using hmem2.2

/-- The loop invariant of `kahnLoop`, over the popped id list
`s.result.map (·.id)`. -/
structure KInv (nodes : List StoredFlowNode) (edges : List StoredFlowEdge)
    (s : KahnState) : Prop where
  readyNodup : s.ready.Nodup
  readyKnown : ∀ x ∈ s.ready, x ∈ knownIds nodes
  popNodup : (s.result.map (fun n => n.id)).Nodup
  popKnown : ∀ x ∈ s.result.map (fun n => n.id), x ∈ knownIds nodes
  disj : ∀ x ∈ s.ready, x ∉ s.result.map (fun n => n.id)
  popZero : ∀ x ∈ s.result.map (fun n => n.id), s.indeg x = 0
  indegEq : ∀ x, s.indeg x =
    indeg0 nodes edges x - inFrom nodes edges (s.result.map (fun n => n.id)) x
  readyIff : ∀ x ∈ knownIds nodes,
    (x ∈ s.ready ↔ (s.indeg x = 0 ∧ x ∉ s.result.map (fun n => n.id)))
  edgeOrd : ∀ e ∈ keptEdges nodes edges,
    e.target ∈ s.result.map (fun n => n.id) →
    Precedes (s.result.map (fun n => n.id)) e.source e.target

theorem kahn_init_inv (nodes : List StoredFlowNode) (edges : List StoredFlowEdge) :
    KInv nodes edges (initialKahnState nodes edges) := by
  have hperm := List.perm_insertionSort strLe
    ((knownIds nodes).filter (fun id => decide (indeg0 nodes edges id = 0)))
  refine ⟨?_, ?_, ?_, ?_, ?_, ?_, ?_, ?_, ?_⟩
  · exact List.Nodup.perm ((List.nodup_dedup _).filter _) hperm.symm
  · intro x hx
    have := hperm.mem_iff.mp hx
    exact (List.mem_filter.mp this).1
  · simp [initialKahnState]
  · simp [initialKahnState]
  · simp [initialKahnState]
  · simp [initialKahnState]
  · intro x
    simp [initialKahnState, inFrom_nil]
  · intro x hxk
    show x ∈ List.insertionSort strLe _ ↔ _
    rw [hperm.mem_iff, List.mem_filter]
    simp [initialKahnState, hxk]
  · simp [initialKahnState, Precedes]

theorem kahn_step_inv (nodes : List StoredFlowNode) (edges : List StoredFlowEdge)
    (s : KahnState) (hInv : KInv nodes edges s) (id : Str) (restReady : List Str)
    (hready : s.ready = id :: restReady) :
    ∃ n, lookupNodeById nodes id = some n ∧ n.id = id ∧
      KInv nodes edges
        { ready := (processSuccs (List.insertionSort strLe (succs nodes edges id))
            s.indeg restReady).2
          indeg := (processSuccs (List.insertionSort strLe (succs nodes edges id))
            s.indeg restReady).1
          result := s.result ++ [n] } := by
  have hidready : id ∈ s.ready := by rw [hready]; simp
  have hidknown : id ∈ knownIds nodes := hInv.readyKnown id hidready
  have hidnotpop : id ∉ s.result.map (fun n => n.id) := hInv.disj id hidready
  have hidindeg : s.indeg id = 0 := ((hInv.readyIff id hidknown).mp hidready).1
  have hidnotrest : id ∉ restReady := by
    have := hInv.readyNodup
    rw [hready, List.nodup_cons] at this
    exact this.1
  obtain ⟨n, hlook, hnid⟩ := lookupNodeById_known hidknown
  refine ⟨n, hlook, hnid, ?_⟩
  have hpop2 : (s.result ++ [n]).map (fun n => n.id) =
      s.result.map (fun n => n.id) ++ [id] := by
    rw [List.map_append]
    simp [hnid]
  have hcnt : ∀ x, cntOcc (List.insertionSort strLe (succs nodes edges id)) x =
      multEdge nodes edges id x := fun x =>
    (cntOcc_perm (List.perm_insertionSort strLe _) x).trans
      (cntOcc_succs_eq_multEdge nodes edges id x)
  have hApp : ∀ x, inFrom nodes edges (s.result.map (fun n => n.id) ++ [id]) x =
      inFrom nodes edges (s.result.map (fun n => n.id)) x +
        multEdge nodes edges id x :=
    fun x => inFrom_append_single nodes edges hidnotpop x
  have hAcond : ∀ x, cntOcc (List.insertionSort strLe (succs nodes edges id)) x ≤
      s.indeg x := by
    intro x
    rw [hcnt x, hInv.indegEq x]
    have h1 := inFrom_le_indeg0 nodes edges (s.result.map (fun n => n.id) ++ [id]) x
    rw [hApp x] at h1
    have h2 := inFrom_le_indeg0 nodes edges (s.result.map (fun n => n.id)) x
    omega
  have hBcond : ∀ y ∈ restReady, s.indeg y = 0 := by
    intro y hy
    have hyready : y ∈ s.ready := by rw [hready]; simp [hy]
    exact ((hInv.readyIff y (hInv.readyKnown y hyready)).mp hyready).1
  have hNcond : restReady.Nodup := by
    have := hInv.readyNodup
    rw [hready, List.nodup_cons] at this
    exact this.2
  obtain ⟨hP1, hP2, hP3⟩ := processSuccs_spec
    (List.insertionSort strLe (succs nodes edges id)) s.indeg restReady
    hAcond hBcond hNcond
  have hindeg2 : ∀ x,
      (processSuccs (List.insertionSort strLe (succs nodes edges id))
        s.indeg restReady).1 x =
      indeg0 nodes edges x -
        inFrom nodes edges (s.result.map (fun n => n.id) ++ [id]) x := by
    intro x
    rw [hP1 x, hcnt x, hInv.indegEq x, hApp x]
    have h2 := inFrom_le_indeg0 nodes edges (s.result.map (fun n => n.id)) x
    omega
  refine ⟨hP3, ?_, ?_, ?_, ?_, ?_, ?_, ?_, ?_⟩
  all_goals dsimp only
  · -- readyKnown
    intro x hx
    rcases (hP2 x).mp hx with hrest | ⟨hcpos, -⟩
    · exact hInv.readyKnown x (by rw [hready]; simp [hrest])
    · rw [hcnt x] at hcpos
      exact multEdge_pos_target_known hcpos
  · -- popNodup
    rw [hpop2, List.nodup_append]
    exact ⟨hInv.popNodup, List.nodup_singleton id, by simpa using hidnotpop⟩
  · -- popKnown
    intro x hx
    rw [hpop2] at hx
    rcases List.mem_append.mp hx with h | h
    · exact hInv.popKnown x h
    · rw [List.mem_singleton.mp h]
      exact hidknown
  · -- disj
    intro x hx
    rw [hpop2]
    intro hxp
    rcases (hP2 x).mp hx with hrest | ⟨hcpos, heq⟩
    · rcases List.mem_append.mp hxp with h | h
      · exact hInv.disj x (by rw [hready]; simp [hrest]) h
      · rw [List.mem_singleton.mp h] at hrest
        exact hidnotrest hrest
    · rcases List.mem_append.mp hxp with h | h
      · have := hInv.popZero x h
        omega
      · rw [List.mem_singleton.mp h] at heq hcpos
        rw [hidindeg] at heq
        omega
  · -- popZero
    intro x hx
    rw [hpop2] at hx
    rw [hP1 x]
    rcases List.mem_append.mp hx with h | h
    · rw [hInv.popZero x h]
      omega
    · rw [List.mem_singleton.mp h]
      rw [hidindeg]
      omega
  · -- indegEq
    intro x
    rw [hpop2]
    exact hindeg2 x
  · -- readyIff
    intro x hxk
    rw [hP2 x, hpop2]
    by_cases hxid : x = id
    · subst hxid
      constructor
      · rintro (hrest | ⟨hcpos, heq⟩)
        · exact absurd hrest hidnotrest
        · rw [hidindeg] at heq
          omega
      · rintro ⟨-, hnp⟩
        exact absurd (by simp : x ∈ s.result.map (fun n => n.id) ++ [x]) hnp
    · by_cases hxpop : x ∈ s.result.map (fun n => n.id)
      · constructor
        · rintro (hrest | ⟨hcpos, heq⟩)
          · exact absurd hxpop (hInv.disj x (by rw [hready]; simp [hrest]))
          · have := hInv.popZero x hxpop
            omega
        · rintro ⟨-, hnp⟩
          exact absurd (by simp [hxpop] : x ∈ s.result.map (fun n => n.id) ++ [id]) hnp
      · have hnp2 : x ∉ s.result.map (fun n => n.id) ++ [id] := by
          intro hc
          rcases List.mem_append.mp hc with h | h
          · exact hxpop h
          · exact hxid (List.mem_singleton.mp h)
        by_cases hxrest : x ∈ restReady
        · have h0 : s.indeg x = 0 := hBcond x hxrest
          have hc0 : cntOcc (List.insertionSort strLe (succs nodes edges id)) x = 0 := by
            have := hAcond x
            omega
          constructor
          · intro _
            refine ⟨?_, hnp2⟩
            rw [hP1 x, h0]
            omega
          · intro _
            exact Or.inl hxrest
        · have hnotready : x ∉ s.ready := by
            rw [hready]
            intro hc
            rcases List.mem_cons.mp hc with h | h
            · exact hxid h
            · exact hxrest h
          have hne0 : s.indeg x ≠ 0 := by
            intro h0
            exact hnotready ((hInv.readyIff x hxk).mpr ⟨h0, hxpop⟩)
          have hle := hAcond x
          constructor
          · rintro (hrest | ⟨hcpos, heq⟩)
            · exact absurd hrest hxrest
            · refine ⟨?_, hnp2⟩
              rw [hP1 x]
              omega
          · rintro ⟨h0, -⟩
            rw [hP1 x] at h0
            right
            constructor
            · omega
            · omega
  · -- edgeOrd
    intro e he htgt
    rw [hpop2] at htgt ⊢
    rcases List.mem_append.mp htgt with h | h
    · exact Precedes_append_right (hInv.edgeOrd e he h)
    · rw [List.mem_singleton.mp h]
      have htgtid : e.target = id := List.mem_singleton.mp h
      have hsrc : e.source ∈ s.result.map (fun n => n.id) := by
        by_contra hsrcnot
        have hlt : inFrom nodes edges (s.result.map (fun n => n.id)) id <
            indeg0 nodes edges id := by
          refine length_filter_lt_of_witness _ _ (keptEdges nodes edges) e he
            (by simp [htgtid]) ?_ (fun x _ hx => by
              rw [Bool.and_eq_true] at hx
              exact hx.1)
          rw [Bool.and_eq_false_iff]
          right
          simpa using hsrcnot
        have := hInv.indegEq id
        rw [hidindeg] at this
        omega
      exact Precedes_append_new hsrc

theorem kahnLoop_spec (nodes : List StoredFlowNode) (edges : List StoredFlowEdge) :
    ∀ (fuel : Nat) (s : KahnState), KInv nodes edges s →
      KInv nodes edges (kahnLoop nodes edges fuel s) ∧
      ((knownIds nodes).length - s.result.length < fuel →
        (kahnLoop nodes edges fuel s).ready = []) := by
  intro fuel
  induction fuel with
  | zero =>
    intro s hInv
    exact ⟨hInv, fun h => absurd h (by omega)⟩
  | succ fuel ih =>
    intro s hInv
    cases hready : s.ready with
    | nil =>
      have hloop : kahnLoop nodes edges (fuel + 1) s = s := by
        rw [show kahnLoop nodes edges (fuel + 1) s =
          (match s.ready with
           | [] => s
           | id :: restReady =>
               kahnLoop nodes edges fuel
                 { ready := (processSuccs
                     (List.insertionSort strLe (succs nodes edges id)) s.indeg
                     restReady).2
                   indeg := (processSuccs
                     (List.insertionSort strLe (succs nodes edges id)) s.indeg
                     restReady).1
                   result :=
                     match lookupNodeById nodes id with
                     | some n => s.result ++ [n]
                     | none => s.result }) from rfl, hready]
      rw [hloop]
      exact ⟨hInv, fun _ => hready⟩
    | cons id restReady =>
      obtain ⟨n, hlook, hnid, hInv2⟩ :=
        kahn_step_inv nodes edges s hInv id restReady hready
      have hloop : kahnLoop nodes edges (fuel + 1) s =
          kahnLoop nodes edges fuel
            { ready := (processSuccs (List.insertionSort strLe (succs nodes edges id))
                s.indeg restReady).2
              indeg := (processSuccs (List.insertionSort strLe (succs nodes edges id))
                s.indeg restReady).1
              result := s.result ++ [n] } := by
        rw [show kahnLoop nodes edges (fuel + 1) s =
          (match s.ready with
           | [] => s
           | id :: restReady =>
               kahnLoop nodes edges fuel
                 { ready := (processSuccs
                     (List.insertionSort strLe (succs nodes edges id)) s.indeg
                     restReady).2
                   indeg := (processSuccs
                     (List.insertionSort strLe (succs nodes edges id)) s.indeg
                     restReady).1
                   result :=
                     match lookupNodeById nodes id with
                     | some n => s.result ++ [n]
                     | none => s.result }) from rfl, hready]
        dsimp only
        rw [hlook]
      rw [hloop]
      obtain ⟨hI, hF⟩ := ih _ hInv2
      refine ⟨hI, fun hfuel => hF ?_⟩
      have hidready : id ∈ s.ready := by rw [hready]; simp
      have hidknown : id ∈ knownIds nodes := hInv.readyKnown id hidready
      have hidnotpop : id ∉ s.result.map (fun n => n.id) := hInv.disj id hidready
      have hsub : (s.result.map (fun n => n.id)).toFinset ⊆
          (knownIds nodes).toFinset.erase id := by
        intro x hx
        rw [List.mem_toFinset] at hx
        rw [Finset.mem_erase]
        refine ⟨fun hxe => hidnotpop (hxe ▸ hx), ?_⟩
        rw [List.mem_toFinset]
        exact hInv.popKnown x hx
      have hcard1 : (s.result.map (fun n => n.id)).toFinset.card =
          (s.result.map (fun n => n.id)).length :=
        List.toFinset_card_of_nodup hInv.popNodup
      have hcard2 : (knownIds nodes).toFinset.card = (knownIds nodes).length :=
        List.toFinset_card_of_nodup (List.nodup_dedup _)
      have hcard3 : ((knownIds nodes).toFinset.erase id).card =
          (knownIds nodes).toFinset.card - 1 :=
        Finset.card_erase_of_mem (by rw [List.mem_toFinset]; exact hidknown)
      have hcard4 := Finset.card_le_card hsub
      have hlen : s.result.length < (knownIds nodes).length := by
        have hml : (s.result.map (fun n => n.id)).length = s.result.length :=
          List.length_map _ _
        have hpos : 0 < (knownIds nodes).length := by
          by_contra h0
          have : (knownIds nodes).length = 0 := by omega
          rw [List.length_eq_zero] at this
          rw [this] at hidknown
          simp at hidknown
        omega
      simp only [List.length_append, List.length_cons, List.length_nil]
      omega

theorem kahn_final_facts (nodes : List StoredFlowNode) (edges : List StoredFlowEdge) :
    KInv nodes edges
      (kahnLoop nodes edges (nodes.length + 1) (initialKahnState nodes edges)) ∧
    (kahnLoop nodes edges (nodes.length + 1) (initialKahnState nodes edges)).ready =
      [] := by
  have h := kahnLoop_spec nodes edges (nodes.length + 1) _ (kahn_init_inv nodes edges)
  refine ⟨h.1, h.2 ?_⟩
  have h1 : (knownIds nodes).length ≤ (nodeIds nodes).length :=
    (List.dedup_sublist (nodeIds nodes)).length_le
  have h2 : (nodeIds nodes).length = nodes.length := List.length_map _ _
  simp only [initialKahnState, List.length_nil]
  omega

theorem kahn_complete (nodes : List StoredFlowNode) (edges : List StoredFlowEdge)
    (hacyc : ∀ a b, edgeRel nodes edges a b →
      ¬ Relation.ReflTransGen (edgeRel nodes edges) b a) :
    ∀ x ∈ knownIds nodes,
      x ∈ (kahnLoop nodes edges (nodes.length + 1)
        (initialKahnState nodes edges)).result.map (fun n => n.id) := by
  obtain ⟨hInv, hready0⟩ := kahn_final_facts nodes edges
  by_contra hnot
  push_neg at hnot
  obtain ⟨x, hxD, hxnot⟩ := hnot
  set fin := kahnLoop nodes edges (nodes.length + 1) (initialKahnState nodes edges)
    with hfin
  set popped := fin.result.map (fun n => n.id) with hpopped
  set U := (knownIds nodes).filter (fun y => decide (y ∉ popped)) with hU
  have hxU : x ∈ U := by
    rw [hU, List.mem_filter]
    exact ⟨hxD, by simpa using hxnot⟩
  have hPred : ∀ y ∈ U, ∃ z ∈ U, edgeRel nodes edges z y := by
    intro y hy
    rw [hU, List.mem_filter] at hy
    obtain ⟨hyD, hynp⟩ := hy
    rw [decide_eq_true_iff] at hynp
    have hynr : y ∉ fin.ready := by rw [hready0]; simp
    have hne0 : fin.indeg y ≠ 0 := by
      intro h0
      exact hynr ((hInv.readyIff y hyD).mpr ⟨h0, hynp⟩)
    have hlt : inFrom nodes edges popped y < indeg0 nodes edges y := by
      have h1 := hInv.indegEq y
      rw [← hpopped] at h1
      have hle := inFrom_le_indeg0 nodes edges popped y
      omega
    have hlt2 : ((keptEdges nodes edges).filter
        (fun e => decide (e.target = y) && decide (e.source ∈ popped))).length <
        ((keptEdges nodes edges).filter (fun e => decide (e.target = y))).length := hlt
    obtain ⟨e, he, hp, hq⟩ := length_filter_lt_exists
      (fun e => decide (e.target = y))
      (fun e => decide (e.target = y) && decide (e.source ∈ popped))
      (keptEdges nodes edges) hlt2
    have htgt : e.target = y := by rwa [decide_eq_true_iff] at hp
    have hsrcnp : e.source ∉ popped := by
      rw [Bool.and_eq_false_iff] at hq
      rcases hq with hq | hq
      · rw [hp] at hq; exact absurd hq (by simp)
      · rwa [decide_eq_false_iff_not] at hq
    have hsrcD : e.source ∈ knownIds nodes := by
      have := he
      unfold keptEdges at this
      rw [List.mem_filter, Bool.and_eq_true] at this
      have h2 := this.2.1
      rw [decide_eq_true_iff] at h2
      unfold knownIds
      rw [List.mem_dedup]
      exact h2
    refine ⟨e.source, ?_, ⟨e, he, rfl, htgt⟩⟩
    rw [hU, List.mem_filter]
    exact ⟨hsrcD, by simpa using hsrcnp⟩
  have hchoice : ∀ y : {y // y ∈ U}, ∃ z : {z // z ∈ U}, edgeRel nodes edges z.1 y.1 := by
    rintro ⟨y, hy⟩
    obtain ⟨z, hz, hzy⟩ := hPred y hy
    exact ⟨⟨z, hz⟩, hzy⟩
  choose F hF using hchoice
  have hstep : ∀ n : Nat, edgeRel nodes edges ((F^[n + 1] ⟨x, hxU⟩).1)
      ((F^[n] ⟨x, hxU⟩).1) := by
    intro n
    rw [Function.iterate_succ_apply']
    exact hF _
  have hchain : ∀ k d : Nat, Relation.ReflTransGen (edgeRel nodes edges)
      ((F^[k + d] ⟨x, hxU⟩).1) ((F^[k] ⟨x, hxU⟩).1) := by
    intro k d
    induction d with
    | zero => exact Relation.ReflTransGen.refl
    | succ d2 ih =>
      have : k + (d2 + 1) = (k + d2) + 1 := by omega
      rw [this]
      exact Relation.ReflTransGen.head (hstep (k + d2)) ih
  have hmaps : ∀ n ∈ Finset.range (U.toFinset.card + 1),
      (F^[n] ⟨x, hxU⟩).1 ∈ U.toFinset := by
    intro n _
    rw [List.mem_toFinset]
    exact (F^[n] ⟨x, hxU⟩).2
  obtain ⟨i, hi, j, hj, hij, hfeq⟩ :=
    Finset.exists_ne_map_eq_of_card_lt_of_maps_to
      (by rw [Finset.card_range]; omega) hmaps
  have haux : ∀ i2 j2 : Nat, i2 < j2 →
      (F^[i2] ⟨x, hxU⟩).1 = (F^[j2] ⟨x, hxU⟩).1 → False := by
    intro i2 j2 hlt heq
    have hd : i2 + (j2 - i2 - 1) + 1 = j2 := by omega
    have hedge := hstep (i2 + (j2 - i2 - 1))
    rw [hd] at hedge
    have hreach : Relation.ReflTransGen (edgeRel nodes edges)
        ((F^[i2 + (j2 - i2 - 1)] ⟨x, hxU⟩).1) ((F^[j2] ⟨x, hxU⟩).1) := by
      rw [← heq]
      exact hchain i2 (j2 - i2 - 1)
    exact hacyc _ _ hedge hreach
  rcases Nat.lt_or_ge i j with hlt | hge
  · exact haux i j hlt hfeq
  · have : j < i := by omega
    exact haux j i this hfeq.symm

instance : IsTotal StoredFlowNode nodeIdLe := ⟨fun a b => bytesLe_total a.id b.id⟩

instance : IsTrans StoredFlowNode nodeIdLe := ⟨fun _ _ _ => bytesLe_trans⟩

/-- Under distinct node ids and an acyclic kept-edge graph, the loop pops
every node, so no fallback occurs and the returned order is the loop
order. -/
theorem kahn_no_fallback (nodes : List StoredFlowNode) (edges : List StoredFlowEdge)
    (hids : (nodeIds nodes).Nodup)
    (hacyc : ∀ a b, edgeRel nodes edges a b →
      ¬ Relation.ReflTransGen (edgeRel nodes edges) b a)
    (hedges : edges ≠ []) :
    topo_sort_nodes nodes edges =
      (kahnLoop nodes edges (nodes.length + 1) (initialKahnState nodes edges)).result ∧
    (kahnLoop nodes edges (nodes.length + 1)
      (initialKahnState nodes edges)).result.length = nodes.length := by
  obtain ⟨hInv, -⟩ := kahn_final_facts nodes edges
  have hcompl := kahn_complete nodes edges hacyc
  have hDlen : (knownIds nodes).length = nodes.length := by
    unfold knownIds
    rw [List.dedup_eq_self.mpr hids]
    exact List.length_map _ _
  have hfeq : ((kahnLoop nodes edges (nodes.length + 1)
      (initialKahnState nodes edges)).result.map (fun n => n.id)).toFinset =
      (knownIds nodes).toFinset := by
    apply Finset.Subset.antisymm
    · intro y hy
      rw [List.mem_toFinset] at hy ⊢
      exact hInv.popKnown y hy
    · intro y hy
      rw [List.mem_toFinset] at hy ⊢
      exact hcompl y hy
  have hlen : (kahnLoop nodes edges (nodes.length + 1)
      (initialKahnState nodes edges)).result.length = nodes.length := by
    have h1 := List.toFinset_card_of_nodup hInv.popNodup
    have h2 : (knownIds nodes).toFinset.card = (knownIds nodes).length :=
      List.toFinset_card_of_nodup (List.nodup_dedup (nodeIds nodes))
    rw [hfeq] at h1
    have h3 : ((kahnLoop nodes edges (nodes.length + 1)
        (initialKahnState nodes edges)).result.map (fun n => n.id)).length =
        (kahnLoop nodes edges (nodes.length + 1)
          (initialKahnState nodes edges)).result.length := List.length_map _ _
    omega
  refine ⟨?_, hlen⟩
  unfold topo_sort_nodes
  rw [if_neg hedges]
  exact if_neg (fun hc => hc hlen)

/-- C6 (amended): with no edges the nodes are returned in insertion order;
and when additionally the node ids are pairwise distinct and the graph over
known-endpoint edges is acyclic, every such edge's source precedes its
target in the returned order. -/
theorem C6_topo_order_amended (nodes : List StoredFlowNode)
    (edges : List StoredFlowEdge) (hids : (nodeIds nodes).Nodup)
    (hacyc : ∀ a b, edgeRel nodes edges a b →
      ¬ Relation.ReflTransGen (edgeRel nodes edges) b a) :
    (∀ ns : List StoredFlowNode, topo_sort_nodes ns [] = ns) ∧
    (∀ e ∈ edges, e.source ∈ nodeIds nodes → e.target ∈ nodeIds nodes →
      Precedes ((topo_sort_nodes nodes edges).map (fun n => n.id))
        e.source e.target) := by
  refine ⟨fun ns => by simp [topo_sort_nodes], ?_⟩
  intro e he hsk htk
  have hedges : edges ≠ [] := by
    intro h0
    rw [h0] at he
    simp at he
  obtain ⟨htopo, hlen⟩ := kahn_no_fallback nodes edges hids hacyc hedges
  obtain ⟨hInv, -⟩ := kahn_final_facts nodes edges
  have hkept : e ∈ keptEdges nodes edges := by
    unfold keptEdges
    rw [List.mem_filter]
    exact ⟨he, by simp [hsk, htk]⟩
  have htgtD : e.target ∈ knownIds nodes := by
    unfold knownIds
    rw [List.mem_dedup]
    exact htk
  have htgtpop := kahn_complete nodes edges hacyc e.target htgtD
  rw [htopo]
  exact hInv.edgeOrd e hkept htgtpop

/-- C7: a cycle among the kept edges triggers the fallback: all nodes are
returned sorted by id ascending (and the function is total — no error). -/
theorem C7_cycle_fallback (nodes : List StoredFlowNode) (edges : List StoredFlowEdge)
    (hcyc : ∃ a b, edgeRel nodes edges a b ∧
      Relation.ReflTransGen (edgeRel nodes edges) b a) :
    topo_sort_nodes nodes edges = List.insertionSort nodeIdLe nodes ∧
    (topo_sort_nodes nodes edges).Perm nodes ∧
    List.Sorted nodeIdLe (topo_sort_nodes nodes edges) := by
  obtain ⟨a, b, hab, hba⟩ := hcyc
  have hedges : edges ≠ [] := by
    intro h0
    obtain ⟨e, he, -, -⟩ := hab
    rw [h0] at he
    unfold keptEdges at he
    simp at he
  obtain ⟨hInv, -⟩ := kahn_final_facts nodes edges
  have hkey : (kahnLoop nodes edges (nodes.length + 1)
      (initialKahnState nodes edges)).result.length ≠ nodes.length := by
    intro heq
    set popped := (kahnLoop nodes edges (nodes.length + 1)
      (initialKahnState nodes edges)).result.map (fun n => n.id) with hpop
    have hpoplen : popped.length = nodes.length := by
      rw [hpop, List.length_map]
      exact heq
    have hDle : (knownIds nodes).length ≤ nodes.length := by
      have h1 : (knownIds nodes).length ≤ (nodeIds nodes).length :=
        (List.dedup_sublist (nodeIds nodes)).length_le
      have h2 : (nodeIds nodes).length = nodes.length := List.length_map _ _
      omega
    have hallpop : ∀ y ∈ knownIds nodes, y ∈ popped := by
      have hsub : popped.toFinset ⊆ (knownIds nodes).toFinset := by
        intro y hy
        rw [List.mem_toFinset] at hy ⊢
        exact hInv.popKnown y hy
      have h1 := List.toFinset_card_of_nodup hInv.popNodup
      rw [← hpop] at h1
      have h2 : (knownIds nodes).toFinset.card = (knownIds nodes).length :=
        List.toFinset_card_of_nodup (List.nodup_dedup (nodeIds nodes))
      have hcard : (knownIds nodes).toFinset.card ≤ popped.toFinset.card := by omega
      have heqf := Finset.eq_of_subset_of_card_le hsub hcard
      intro y hy
      have : y ∈ (knownIds nodes).toFinset := by rwa [List.mem_toFinset]
      rw [← heqf, List.mem_toFinset] at this
      exact this
    have hstep : ∀ u v, edgeRel nodes edges u v → posIn popped u < posIn popped v := by
      intro u v huv
      obtain ⟨e, he, hs, ht⟩ := huv
      have htD : v ∈ knownIds nodes := by
        unfold keptEdges at he
        rw [List.mem_filter, Bool.and_eq_true] at he
        have := he.2.2
        rw [decide_eq_true_iff] at this
        unfold knownIds
        rw [List.mem_dedup]
        rw [← ht]
        exact this
      have hprec := hInv.edgeOrd e he (by rw [ht]; exact hallpop v htD)
      rw [hs, ht] at hprec
      exact Precedes_posIn_lt hInv.popNodup hprec
    have hle : posIn popped b ≤ posIn popped a := by
      clear hab
      induction hba with
      | refl => exact le_refl _
      | tail h1 h2 ih =>
        have := hstep _ _ h2
        omega
    have := hstep a b hab
    omega
  constructor
  · unfold topo_sort_nodes
    rw [if_neg hedges]
    exact if_pos hkey
  · have htopo : topo_sort_nodes nodes edges = List.insertionSort nodeIdLe nodes := by
      unfold topo_sort_nodes
      rw [if_neg hedges]
      exact if_pos hkey
    rw [htopo]
    exact ⟨List.perm_insertionSort nodeIdLe nodes,
      List.sorted_insertionSort nodeIdLe nodes⟩

/-- If the kept-edge relation has a single source/target pair with distinct
endpoints, the graph is acyclic. -/
theorem single_edge_acyclic {nodes : List StoredFlowNode}
    {edges : List StoredFlowEdge} {s t : Str}
    (hchar : ∀ x y, edgeRel nodes edges x y → x = s ∧ y = t) (hne : s ≠ t) :
    ∀ a b, edgeRel nodes edges a b →
      ¬ Relation.ReflTransGen (edgeRel nodes edges) b a := by
  intro a b hab hba
  obtain ⟨hs, ht⟩ := hchar a b hab
  subst hs ht
  rcases Relation.ReflTransGen.cases_head hba with heq | ⟨c, htc, -⟩
  · exact hne heq.symm
  · exact hne ((hchar _ _ htc).1).symm

theorem edgeRel_char {nodes : List StoredFlowNode} {edges : List StoredFlowEdge}
    {e0 : StoredFlowEdge} (hk : keptEdges nodes edges = [e0]) :
    ∀ x y, edgeRel nodes edges x y → x = e0.source ∧ y = e0.target := by
  rintro x y ⟨e, he, hs, ht⟩
  rw [hk, List.mem_singleton] at he
  subst he
  exact ⟨hs.symm, ht.symm⟩

/-- Three nodes, two of them sharing the id "b", and one acyclic edge b→a. -/
def c6dupNodes : List StoredFlowNode :=
  [⟨bytes "b", bytes "B", bytes "generic", bytes "one"⟩,
   ⟨bytes "b", bytes "B", bytes "generic", bytes "two"⟩,
   ⟨bytes "a", bytes "A", bytes "generic", bytes "three"⟩]

def c6dupEdge : StoredFlowEdge := ⟨bytes "b", bytes "a"⟩

/-- C6 counterexample: with duplicate node ids the claim fails even though
the edge graph is acyclic: only one node per id can be popped, so the
result is short, the id-sorted fallback triggers, and the edge b→a has its
source after its target in the returned order. -/
theorem C6_duplicate_ids_counterexample :
    (∀ a b, edgeRel c6dupNodes [c6dupEdge] a b →
      ¬ Relation.ReflTransGen (edgeRel c6dupNodes [c6dupEdge]) b a) ∧
    c6dupEdge.source ∈ nodeIds c6dupNodes ∧
    c6dupEdge.target ∈ nodeIds c6dupNodes ∧
    ¬ Precedes ((topo_sort_nodes c6dupNodes [c6dupEdge]).map (fun n => n.id))
      c6dupEdge.source c6dupEdge.target := by
  refine ⟨single_edge_acyclic (@edgeRel_char _ _ c6dupEdge (by decide)) (by decide),
    by decide, by decide, by decide⟩

/-- Two distinct-id nodes stored in order b then a, with one edge a→b. -/
def c6wNodes : List StoredFlowNode :=
  [⟨bytes "b", bytes "B", bytes "generic", bytes "two"⟩,
   ⟨bytes "a", bytes "A", bytes "generic", bytes "one"⟩]

def c6wEdge : StoredFlowEdge := ⟨bytes "a", bytes "b"⟩

/-- C6 witness: on a concrete acyclic instance with distinct ids, the
edge's source precedes its target in the returned order. -/
theorem C6_topo_order_amended_witness :
    (nodeIds c6wNodes).Nodup ∧
    Precedes ((topo_sort_nodes c6wNodes [c6wEdge]).map (fun n => n.id))
      (bytes "a") (bytes "b") := by
  refine ⟨by decide, ?_⟩
  have h := C6_topo_order_amended c6wNodes [c6wEdge] (by decide)
    (single_edge_acyclic (@edgeRel_char _ _ c6wEdge (by decide)) (by decide))
  exact h.2 c6wEdge (List.mem_singleton.mpr rfl) (by decide) (by decide)

/-- Two nodes forming a 2-cycle a→b→a. -/
def c7wNodes : List StoredFlowNode :=
  [⟨bytes "b", bytes "B", bytes "generic", bytes "two"⟩,
   ⟨bytes "a", bytes "A", bytes "generic", bytes "one"⟩]

def c7wEdges : List StoredFlowEdge :=
  [⟨bytes "a", bytes "b"⟩, ⟨bytes "b", bytes "a"⟩]

/-- C7 witness: a concrete 2-cycle triggers the fallback and the output is
the id-sorted node list. -/
theorem C7_cycle_fallback_witness :
    topo_sort_nodes c7wNodes c7wEdges = List.insertionSort nodeIdLe c7wNodes ∧
    (topo_sort_nodes c7wNodes c7wEdges).Perm c7wNodes ∧
    List.Sorted nodeIdLe (topo_sort_nodes c7wNodes c7wEdges) :=
  C7_cycle_fallback c7wNodes c7wEdges
    ⟨bytes "a", bytes "b",
     ⟨⟨bytes "a", bytes "b"⟩, by decide, rfl, rfl⟩,
     Relation.ReflTransGen.single ⟨⟨bytes "b", bytes "a"⟩, by decide, rfl, rfl⟩⟩
